import Mathlib

/-!
Shallow embedding of the `brawn` spiking-neural-network trainer
(`src/models/synapses.py`, `src/models/trainers.py`, `src/tools/image.py`,
`src/tools/data.py`) together with proofs of the specification claims.

Numeric state (weights, traces, times) is modelled over `ℚ`; times are in
milliseconds.  The simulation engine's `exp` primitive is an explicit
function parameter `e : ℚ → ℚ`, so every definition stays executable; the
theorems assume only the facts about `e` that the claims need (`e 0 = 1`).
-/

namespace Brawn

/-- `clip(x, lo, hi)` of the numerical engine: values outside `[lo, hi]`
are clipped to the interval edges. -/
def clip (x lo hi : ℚ) : ℚ := min (max x lo) hi

/-- `int(cond)` of the equation language: 1 when the condition holds, else 0. -/
def boolInd (b : Prop) [Decidable b] : ℚ := if b then 1 else 0

/-- The synapse-model constants of `parameters.py` /
`ZengSTDPSynapses.namespace`. -/
structure STDPParams where
  tau_LTP : ℚ
  tau_LTD : ℚ
  ALTP : ℚ
  ALTD : ℚ
  aLTP : ℚ
  aLTD : ℚ
  w_max : ℚ

/-- The concrete values from `parameters.py` (times in ms):
`tau_LTP = tau_LTD = 20 ms`, `ALTP = 1`, `ALTD = -1`, `aLTP = 2e-2`,
`aLTD = 2.4e-2`, `w_max = 0.4`. -/
def zengParams : STDPParams :=
  { tau_LTP := 20, tau_LTD := 20, ALTP := 1, ALTD := -1,
    aLTP := 1/50, aLTD := 3/125, w_max := 2/5 }

/-- Per-synapse state of `ZengSTDPSynapses.equations`, together with the
postsynaptic input current `I_m` that `on_pre` accumulates into. -/
structure SynState where
  t_prs : ℚ
  t_pos : ℚ
  P : ℚ
  Q : ℚ
  w : ℚ
  val_pot : ℚ
  val_dep : ℚ
  applicable : ℚ
  I_m : ℚ

/-- `ZengSTDPSynapses.on_pre_eqs`: the statement sequence run on a
presynaptic spike at time `t` (sequential assignment semantics). -/
def on_pre (e : ℚ → ℚ) (p : STDPParams) (t : ℚ) (s : SynState) : SynState :=
  let I_m := s.I_m + s.w
  let t_prs := boolInd (s.t_prs < 0) * t + boolInd (0 ≤ s.t_prs) * s.t_prs
  let P := s.P * e ((t_prs - t) / p.tau_LTP) + p.ALTP
  let t_prs := t
  let applicable := boolInd (0 ≤ s.t_pos ∧ s.t_pos < t)
  let val_dep := applicable * p.aLTD * s.Q * e ((s.t_pos - t) / p.tau_LTD)
  let w := clip (s.w + val_dep) 0 p.w_max
  { t_prs := t_prs, t_pos := s.t_pos, P := P, Q := s.Q, w := w,
    val_pot := s.val_pot, val_dep := val_dep, applicable := applicable,
    I_m := I_m }

/-- `ZengSTDPSynapses.on_post_eqs`: the statement sequence run on a
postsynaptic spike at time `t`. -/
def on_post (e : ℚ → ℚ) (p : STDPParams) (t : ℚ) (s : SynState) : SynState :=
  let t_pos := boolInd (s.t_pos < 0) * t + boolInd (0 ≤ s.t_pos) * s.t_pos
  let Q := s.Q * e ((t_pos - t) / p.tau_LTD) + p.ALTD
  let t_pos := t
  let applicable := boolInd (0 ≤ s.t_prs ∧ s.t_prs < t)
  let val_pot := applicable * p.aLTP * s.P * e ((s.t_prs - t) / p.tau_LTP)
  let w := clip (s.w + val_pot) 0 p.w_max
  { t_prs := s.t_prs, t_pos := t_pos, P := s.P, Q := Q, w := w,
    val_pot := val_pot, val_dep := s.val_dep, applicable := applicable,
    I_m := s.I_m }

/-- One spike event seen by a synapse: presynaptic or postsynaptic, with
its time. -/
inductive SpikeEv where
  | pre (t : ℚ)
  | post (t : ℚ)

/-- Dispatch one spike event to the matching update of `ZengSTDPSynapses`. -/
def stdp_step (e : ℚ → ℚ) (p : STDPParams) (s : SynState) (ev : SpikeEv) :
    SynState :=
  match ev with
  | .pre t => on_pre e p t s
  | .post t => on_post e p t s

/-- A finite sequence of plasticity updates applied to a synapse. -/
def stdp_run (e : ℚ → ℚ) (p : STDPParams) (s : SynState)
    (evs : List SpikeEv) : SynState :=
  evs.foldl (stdp_step e p) s

/-- `image2spikes` of `src/tools/image.py`: row-major scan over the pixel
grid; a pixel strictly above 128 emits one spike `(pix_id, spike_time)`. -/
def image2spikes (pixel_map : List (List ℕ)) (spike_time : ℚ) :
    List ℕ × List ℚ :=
  let final := pixel_map.foldl
    (fun (acc : ℕ × List ℕ × List ℚ) line =>
      line.foldl
        (fun (acc : ℕ × List ℕ × List ℚ) pixel =>
          if 128 < pixel then
            (acc.1 + 1, acc.2.1 ++ [acc.1], acc.2.2 ++ [spike_time])
          else
            (acc.1 + 1, acc.2.1, acc.2.2))
        acc)
    (0, [], [])
  (final.2.1, final.2.2)

/-- `count_spikes` of `src/tools/data.py`: per neuron (population order),
the number of timestamps `val` with `end > val >= start`. -/
def count_spikes (spike_train : List (List ℚ)) (start fin : ℚ) : List ℕ :=
  spike_train.map
    (fun l => (l.filter (fun val => decide (start ≤ val ∧ val < fin))).length)

/-- `get_class_spike_number` of `src/tools/data.py`: per class block, the
number of member neurons with a strictly positive spike count. -/
def get_class_spike_number (spikes : List ℕ) (class_size class_amount : ℕ) :
    List ℕ :=
  (List.range class_amount).map
    (fun class_id =>
      ((List.range class_size).filter
        (fun i => decide (0 < spikes.getD (class_id * class_size + i) 0))).length)

/-- The inner loop of `get_class_spike_ids` for one class: append each
member id to the spiking or to the non-spiking list. -/
def class_partition (spikes : List ℕ) (class_id class_size : ℕ) :
    List ℕ × List ℕ :=
  (List.range class_size).foldl
    (fun acc i =>
      if 0 < spikes.getD (class_id * class_size + i) 0 then
        (acc.1 ++ [class_id * class_size + i], acc.2)
      else (acc.1, acc.2 ++ [class_id * class_size + i]))
    ([], [])

/-- `get_class_spike_ids` of `src/tools/data.py`: per class block, the
spiking and the non-spiking member ids. -/
def get_class_spike_ids (spikes : List ℕ) (class_size class_amount : ℕ) :
    List (List ℕ) × List (List ℕ) :=
  ((List.range class_amount).map
      (fun class_id => (class_partition spikes class_id class_size).1),
   (List.range class_amount).map
      (fun class_id => (class_partition spikes class_id class_size).2))

/-- The three per-output-neuron teacher flags written by
`ZengTrainer._set_markers` (`potentiate`, `depress`, `hold`), each a
per-neuron scalar array. -/
structure Flags where
  potentiate : ℕ → ℕ
  depress : ℕ → ℕ
  hold : ℕ → ℕ

/-- Pointwise array write `flag[neuron] = v`. -/
def setFlag (f : ℕ → ℕ) (neuron v : ℕ) : ℕ → ℕ :=
  fun m => if m = neuron then v else f m

/-- All flags cleared, the state `_apply_training` leaves behind. -/
def zeroFlags : Flags :=
  { potentiate := fun _ => 0, depress := fun _ => 0, hold := fun _ => 0 }

/-- Mutable state threaded through `_set_markers`: the flag arrays, the
accumulated `hold_list`, and a counter indexing successive `rng.choice`
calls. -/
structure MarkSt where
  flags : Flags
  hold_list : List ℕ
  pick_idx : ℕ

/-- Target-class selection loop of `_set_markers`: `deficit` times, pick a
neuron from the non-spiking list, remove it from `hold_list` and from the
non-spiking list, and set its `potentiate` flag. -/
def pot_loop (pick : ℕ → List ℕ → ℕ) :
    ℕ → MarkSt → List ℕ → MarkSt × List ℕ
  | 0, st, non_spiking => (st, non_spiking)
  | k + 1, st, non_spiking =>
      let neuron := pick st.pick_idx non_spiking
      pot_loop pick k
        { flags :=
            { potentiate := setFlag st.flags.potentiate neuron 1,
              depress := st.flags.depress, hold := st.flags.hold },
          hold_list := st.hold_list.erase neuron,
          pick_idx := st.pick_idx + 1 }
        (non_spiking.erase neuron)

/-- Non-target-class selection loop of `_set_markers`: `excess` times,
pick a neuron from the spiking list, remove it, and set its `depress`
flag. -/
def dep_loop (pick : ℕ → List ℕ → ℕ) :
    ℕ → MarkSt → List ℕ → MarkSt × List ℕ
  | 0, st, spiking => (st, spiking)
  | k + 1, st, spiking =>
      let neuron := pick st.pick_idx spiking
      dep_loop pick k
        { flags :=
            { potentiate := st.flags.potentiate,
              depress := setFlag st.flags.depress neuron 1,
              hold := st.flags.hold },
          hold_list := st.hold_list,
          pick_idx := st.pick_idx + 1 }
        (spiking.erase neuron)

/-- The body of the per-class loop of `_set_markers` for one `class_id`
(`number_spikes` is the length of the class's spiking list; the target
class first extends `hold_list` with all its member ids `a`). -/
def mark_step (pick : ℕ → List ℕ → ℕ)
    (label class_size active_threshold inactive_threshold : ℕ)
    (spiking_classes non_spiking_classes : List (List ℕ))
    (st : MarkSt) (class_id : ℕ) : MarkSt :=
  if class_id = label then
    if (spiking_classes.getD class_id []).length < active_threshold then
      (pot_loop pick
        (active_threshold - (spiking_classes.getD class_id []).length)
        { st with
            hold_list := st.hold_list ++ (List.range class_size).map
              (fun n => class_id * class_size + n) }
        (non_spiking_classes.getD class_id [])).1
    else
      { st with
          hold_list := st.hold_list ++ (List.range class_size).map
            (fun n => class_id * class_size + n) }
  else if inactive_threshold < (spiking_classes.getD class_id []).length then
    (dep_loop pick
      ((spiking_classes.getD class_id []).length - inactive_threshold) st
      (spiking_classes.getD class_id [])).1
  else st

/-- `ZengTrainer._set_markers`: per class, select teacher-flag recipients,
then set `hold = 1` on every neuron left in `hold_list`.  The random
`rng.choice` calls are abstracted by `pick`, indexed by call order. -/
def set_markers (pick : ℕ → List ℕ → ℕ)
    (label class_size class_amount active_threshold inactive_threshold : ℕ)
    (spiking_classes non_spiking_classes : List (List ℕ))
    (flags0 : Flags) : Flags :=
  let st := (List.range class_amount).foldl
    (mark_step pick label class_size active_threshold inactive_threshold
      spiking_classes non_spiking_classes)
    { flags := flags0, hold_list := [], pick_idx := 0 }
  st.hold_list.foldl
    (fun f neuron =>
      { potentiate := f.potentiate, depress := f.depress,
        hold := setFlag f.hold neuron 1 })
    st.flags

/-- The running `best = {'class': ..., 'value': ...}` record of
`test_network`'s prediction loop (`value` starts at `-1`). -/
structure Best where
  cls : ℕ
  value : ℤ

/-- The prediction loop of `test_network` over `enumerate(run_results)`:
a tie with the current best sets `canceled`, a strictly greater count
resets it and takes over the best record. -/
def predict_aux : List ℕ → ℕ → Best → Bool → Best × Bool
  | [], _, best, canceled => (best, canceled)
  | v :: rest, i, best, canceled =>
      if (v : ℤ) = best.value then predict_aux rest (i + 1) best true
      else if (v : ℤ) > best.value then
        predict_aux rest (i + 1) ⟨i, (v : ℤ)⟩ false
      else predict_aux rest (i + 1) best canceled

/-- Run the prediction loop from its initial state
(`best = {'class': 0, 'value': -1}`, `canceled = False`). -/
def predict (run_results : List ℕ) : Best × Bool :=
  predict_aux run_results 0 ⟨0, -1⟩ false

/-- The per-sample success test of `test_network`:
`best['class'] == image['class'] and not canceled`. -/
def sample_success (run_results : List ℕ) (label : ℕ) : Bool :=
  ((predict run_results).1.cls == label) && !(predict run_results).2

/-- One dataset sample: class label and pixel grid. -/
structure Image where
  cls : ℕ
  pixelmap : List (List ℕ)

/-- The `results` dict built by `test_network`. -/
structure TestResults where
  image : List ℕ
  success : List Bool
  rate : ℚ
  success_num : ℕ

/-- `test_network` raises `ZeroDivisionError` when the test set is empty
(the `success/len(self.test_set)` line). -/
inductive TestError where
  | divByZero

/-- `ZengTrainer.test_network` over an abstract simulator state `σ`:
optionally checkpoint, run one recorded cycle per test sample through the
engine (`runCycle` abstracts `set_spikes` plus `run`, returning the new
state and the per-neuron output spike counts), tally per-class counts,
record the prediction outcome, and restore the checkpoint on a dry run.
The returned `σ` is the simulator state when the call ends, also on the
error path (where the restore line is never reached). -/
def test_network {σ : Type} (runCycle : σ → List ℕ × List ℚ → σ × List ℕ)
    (class_size class_amount : ℕ) (dry_run : Bool) (st0 : σ)
    (test_set : List Image) : Except TestError TestResults × σ :=
  let checkpoint := st0
  let loop := test_set.foldl
    (fun (acc : σ × List ℕ × List Bool × ℕ) image =>
      let (st, images, successes, success) := acc
      let encoded := image2spikes image.pixelmap 0
      let (st', data) := runCycle st encoded
      let run_results := get_class_spike_number data class_size class_amount
      if sample_success run_results image.cls then
        (st', images ++ [image.cls], successes ++ [true], success + 1)
      else
        (st', images ++ [image.cls], successes ++ [false], success))
    (st0, [], [], 0)
  if test_set.length = 0 then (.error .divByZero, loop.1)
  else
    let results : TestResults :=
      { image := loop.2.1, success := loop.2.2.1,
        rate := (loop.2.2.2 : ℚ) / (test_set.length : ℚ) * 100,
        success_num := loop.2.2.2 }
    let stFinal := if dry_run then checkpoint else loop.1
    (.ok results, stFinal)

/-- The `TrainerError` payload raised by `train` on an empty encoding. -/
structure TrainError where
  message : String
  picture : ℤ
deriving DecidableEq

/-- The front part of `ZengTrainer.train` that decides the empty-input
error: pop the next sample, encode it, and raise when the encoding is
empty.  Returns `none` when the training set is already empty (the
`pop(0)` itself fails), otherwise the outcome together with the training
set as `train` leaves it. -/
def train_step (train_data_size : ℤ) (train_set : List Image) :
    Option ((Except TrainError Image) × List Image) :=
  match train_set with
  | [] => none
  | image :: rest =>
      if (image2spikes image.pixelmap 0).1.length = 0 then
        some (.error
          { message := "Working on empty picture!",
            picture := train_data_size - (rest.length : ℤ) }, rest)
      else some (.ok image, rest)

/-! ### Empty-input error of `train` (C6, C10) -/

/-- C6.  `train()` raises exactly when the popped training sample's spike
encoding is empty, and the raised error carries the offending sample's
position `train_data_size - len(train_set)` (the remaining training-set
length after the pop). -/
theorem train_empty_input_error (tds : ℤ) (image : Image)
    (rest : List Image) :
    (train_step tds (image :: rest) =
       some (Except.error
         { message := "Working on empty picture!",
           picture := tds - (rest.length : ℤ) }, rest) ↔
      (image2spikes image.pixelmap 0).1 = []) ∧
    ((image2spikes image.pixelmap 0).1 ≠ [] →
      train_step tds (image :: rest) = some (Except.ok image, rest)) := by
  by_cases hE : (image2spikes image.pixelmap 0).1 = []
  · refine ⟨?_, fun hne => absurd hE hne⟩
    simp [train_step, hE]
  · have hlen : ¬ (image2spikes image.pixelmap 0).1.length = 0 := by
      simpa [List.length_eq_zero] using hE
    refine ⟨?_, fun _ => by simp [train_step, hlen]⟩
    simp [train_step, hlen, hE]

/-- Witness for C6: a blank 1×1 image raises the error at position
`150 - 0`. -/
theorem train_empty_input_error_witness :
    train_step 150 [⟨3, [[0]]⟩] =
      some (Except.error
        { message := "Working on empty picture!",
          picture := 150 - ((List.length ([] : List Image)) : ℤ) },
        ([] : List Image)) :=
  (train_empty_input_error 150 ⟨3, [[0]]⟩ []).1.mpr rfl

/-- C10.  When `train()` raises on an empty encoding, the sample has
already been popped: the training set is left shortened by one element
(its tail), so the offending sample is consumed. -/
theorem train_error_consumes_sample (tds : ℤ) (image : Image)
    (rest : List Image)
    (hempty : (image2spikes image.pixelmap 0).1 = []) :
    train_step tds (image :: rest) =
      some (Except.error
        { message := "Working on empty picture!",
          picture := tds - (rest.length : ℤ) }, rest) ∧
    rest = (image :: rest).tail ∧
    rest.length + 1 = (image :: rest).length := by
  refine ⟨?_, rfl, rfl⟩
  simp [train_step, hempty]

/-- Witness for C10 on the same blank-image input. -/
theorem train_error_consumes_sample_witness :
    train_step 150 [⟨3, [[0]]⟩] =
      some (Except.error
        { message := "Working on empty picture!",
          picture := 150 - ((List.length ([] : List Image)) : ℤ) },
        ([] : List Image)) ∧
    ([] : List Image) = [(⟨3, [[0]]⟩ : Image)].tail ∧
    ([] : List Image).length + 1 = [(⟨3, [[0]]⟩ : Image)].length :=
  train_error_consumes_sample 150 ⟨3, [[0]]⟩ [] rfl

/-! ### Dry-run isolation of `test_network` (C7) -/

/-- C7.  `test_network(dry_run=True)` checkpoints the simulator state
before testing and ends with exactly the initial state, whatever the
engine (`runCycle`), the network state and the test set are: a dry-run
evaluation leaves the simulator state (including all synaptic weights)
unchanged. -/
theorem test_network_dry_run_isolation {σ : Type}
    (runCycle : σ → List ℕ × List ℚ → σ × List ℕ) (cs ca : ℕ) (st0 : σ)
    (ts : List Image) :
    (test_network runCycle cs ca true st0 ts).2 = st0 := by
  cases ts with
  | nil => rfl
  | cons img rest => simp [test_network]

/-! ### Stimulus encoding (C8) -/

/-- Spec-side description of the row-major scan (for comparison with
`image2spikes`): the scan positions, counted from `pid`, of exactly the
pixels strictly greater than 128. -/
def scan_positions_spec : List ℕ → ℕ → List ℕ
  | [], _ => []
  | p :: rest, pid =>
      if 128 < p then pid :: scan_positions_spec rest (pid + 1)
      else scan_positions_spec rest (pid + 1)

lemma scan_positions_spec_append (l1 l2 : List ℕ) :
    ∀ pid, scan_positions_spec (l1 ++ l2) pid =
      scan_positions_spec l1 pid ++ scan_positions_spec l2 (pid + l1.length) := by
  induction l1 with
  | nil => intro pid; simp [scan_positions_spec]
  | cons p rest ih =>
      intro pid
      by_cases h : 128 < p <;>
        simp [scan_positions_spec, h, ih, Nat.add_assoc, Nat.add_comm 1]

lemma scan_positions_spec_ge (l : List ℕ) :
    ∀ pid j, j ∈ scan_positions_spec l pid → pid ≤ j := by
  induction l with
  | nil => intro pid j h; simp [scan_positions_spec] at h
  | cons p rest ih =>
      intro pid j h
      by_cases hp : 128 < p
      · rw [scan_positions_spec, if_pos hp] at h
        rcases List.mem_cons.mp h with rfl | h
        · exact le_refl j
        · exact le_trans (Nat.le_succ pid) (ih (pid + 1) j h)
      · rw [scan_positions_spec, if_neg hp] at h
        exact le_trans (Nat.le_succ pid) (ih (pid + 1) j h)

lemma scan_positions_spec_nodup (l : List ℕ) :
    ∀ pid, (scan_positions_spec l pid).Nodup := by
  induction l with
  | nil => intro pid; simp [scan_positions_spec]
  | cons p rest ih =>
      intro pid
      by_cases hp : 128 < p
      · rw [scan_positions_spec, if_pos hp]
        refine List.nodup_cons.mpr ⟨fun hmem => ?_, ih (pid + 1)⟩
        have := scan_positions_spec_ge rest (pid + 1) pid hmem
        omega
      · rw [scan_positions_spec, if_neg hp]
        exact ih (pid + 1)

lemma mem_scan_positions_spec (l : List ℕ) :
    ∀ pid j, j ∈ scan_positions_spec l pid ↔
      ∃ i, i < l.length ∧ j = pid + i ∧ 128 < l.getD i 0 := by
  induction l with
  | nil => intro pid j; simp [scan_positions_spec]
  | cons p rest ih =>
      intro pid j
      constructor
      · intro h
        by_cases hp : 128 < p
        · rw [scan_positions_spec, if_pos hp] at h
          rcases List.mem_cons.mp h with rfl | h
          · exact ⟨0, Nat.succ_pos _, by simp, by simpa using hp⟩
          · rcases (ih (pid + 1) j).mp h with ⟨i, hi, hj, hpix⟩
            exact ⟨i + 1, by simp only [List.length_cons]; omega, by omega,
              by simpa using hpix⟩
        · rw [scan_positions_spec, if_neg hp] at h
          rcases (ih (pid + 1) j).mp h with ⟨i, hi, hj, hpix⟩
          exact ⟨i + 1, by simp only [List.length_cons]; omega, by omega,
            by simpa using hpix⟩
      · rintro ⟨i, hi, rfl, hpix⟩
        cases i with
        | zero =>
            have hp : 128 < p := by simpa using hpix
            rw [scan_positions_spec, if_pos hp]
            simp
        | succ i =>
            have hi' : i < rest.length := by
              simp only [List.length_cons] at hi; omega
            have hmem : pid + 1 + i ∈ scan_positions_spec rest (pid + 1) :=
              (ih (pid + 1) (pid + 1 + i)).mpr
                ⟨i, hi', rfl, by simpa using hpix⟩
            have hco : pid + (i + 1) = pid + 1 + i := by omega
            by_cases hp : 128 < p
            · rw [scan_positions_spec, if_pos hp]
              exact List.mem_cons.mpr (Or.inr (hco ▸ hmem))
            · rw [scan_positions_spec, if_neg hp]
              exact hco ▸ hmem

lemma scan_positions_spec_length (l : List ℕ) :
    ∀ pid, (scan_positions_spec l pid).length =
      l.countP (fun p => decide (128 < p)) := by
  induction l with
  | nil => intro pid; simp [scan_positions_spec]
  | cons p rest ih =>
      intro pid
      by_cases hp : 128 < p <;>
        simp [scan_positions_spec, hp, ih, List.countP_cons]

lemma image2spikes_line_fold (t : ℚ) (l : List ℕ) :
    ∀ (pid : ℕ) (ind : List ℕ) (tim : List ℚ),
      l.foldl
        (fun (acc : ℕ × List ℕ × List ℚ) pixel =>
          if 128 < pixel then
            (acc.1 + 1, acc.2.1 ++ [acc.1], acc.2.2 ++ [t])
          else (acc.1 + 1, acc.2.1, acc.2.2))
        (pid, ind, tim) =
      (pid + l.length, ind ++ scan_positions_spec l pid,
       tim ++ List.replicate (l.countP (fun p => decide (128 < p))) t) := by
  induction l with
  | nil => intro pid ind tim; simp [scan_positions_spec]
  | cons p rest ih =>
      intro pid ind tim
      by_cases hp : 128 < p
      · simp only [List.foldl_cons, if_pos hp, ih, scan_positions_spec,
          List.countP_cons, Prod.mk.injEq]
        refine ⟨by simp only [List.length_cons]; omega, ?_, ?_⟩
        · simp [hp]
        · simp [hp, Nat.add_comm 1, List.replicate_succ]
      · simp only [List.foldl_cons, if_neg hp, ih, scan_positions_spec,
          List.countP_cons, Prod.mk.injEq]
        refine ⟨by simp only [List.length_cons]; omega, ?_, ?_⟩
        · simp [hp]
        · simp [hp]

lemma image2spikes_eq (pm : List (List ℕ)) (t : ℚ) :
    image2spikes pm t =
      (scan_positions_spec pm.flatten 0,
       List.replicate (pm.flatten.countP (fun p => decide (128 < p))) t) := by
  suffices h : ∀ (pid : ℕ) (ind : List ℕ) (tim : List ℚ),
      pm.foldl
        (fun (acc : ℕ × List ℕ × List ℚ) line =>
          line.foldl
            (fun (acc : ℕ × List ℕ × List ℚ) pixel =>
              if 128 < pixel then
                (acc.1 + 1, acc.2.1 ++ [acc.1], acc.2.2 ++ [t])
              else (acc.1 + 1, acc.2.1, acc.2.2))
            acc)
        (pid, ind, tim) =
      (pid + pm.flatten.length, ind ++ scan_positions_spec pm.flatten pid,
       tim ++ List.replicate
         (pm.flatten.countP (fun p => decide (128 < p))) t) by
    unfold image2spikes
    rw [h 0 [] []]
    simp
  induction pm with
  | nil => intro pid ind tim; simp [scan_positions_spec]
  | cons row rows ih =>
      intro pid ind tim
      simp only [List.foldl_cons, image2spikes_line_fold, ih,
        List.flatten_cons, Prod.mk.injEq]
      refine ⟨by simp only [List.length_append]; omega, ?_, ?_⟩
      · rw [scan_positions_spec_append, List.append_assoc]
      · rw [List.countP_append, List.replicate_add, List.append_assoc]

lemma scan_positions_spec_none (l : List ℕ) (hnone : ∀ p ∈ l, ¬ 128 < p) :
    ∀ pid, scan_positions_spec l pid = [] := by
  induction l with
  | nil => intro pid; rfl
  | cons p rest ih =>
      intro pid
      rw [scan_positions_spec, if_neg (hnone p (List.mem_cons_self p rest))]
      exact ih (fun q hq => hnone q (List.mem_cons_of_mem p hq)) (pid + 1)

lemma scan_positions_spec_all (l : List ℕ) (hall : ∀ p ∈ l, 128 < p) :
    ∀ pid, scan_positions_spec l pid =
      (List.range l.length).map (fun i => pid + i) := by
  induction l with
  | nil => intro pid; rfl
  | cons p rest ih =>
      intro pid
      rw [scan_positions_spec, if_pos (hall p (List.mem_cons_self p rest)),
        ih (fun q hq => hall q (List.mem_cons_of_mem p hq)) (pid + 1)]
      simp only [List.length_cons, List.range_succ_eq_map, List.map_cons,
        List.map_map, Nat.add_zero, List.cons.injEq, true_and]
      refine List.map_congr_left (fun i _ => ?_)
      simp [Function.comp]
      omega

/-- C8.  Stimulus encoding: `image2spikes` scans the grid in row-major
order and emits one spike (index equal to the scan position, time equal to
`spike_time`) for exactly the pixels strictly greater than 128; an
all-zero grid yields two empty sequences, an all-255 grid of `N` pixels
yields indices `0..N-1` each exactly once with every time equal to
`spike_time`, a pixel equal to 128 produces nothing, and the grid
`[[0,0,0],[0,200,0],[0,0,0]]` yields `indices = [4]`,
`times = [spike_time]`. -/
theorem image2spikes_encoding (pm : List (List ℕ)) (t : ℚ) :
    (∀ j : ℕ, j ∈ (image2spikes pm t).1 ↔
      (j < pm.flatten.length ∧ 128 < pm.flatten.getD j 0)) ∧
    (image2spikes pm t).1.Nodup ∧
    (image2spikes pm t).2 = List.replicate (image2spikes pm t).1.length t ∧
    ((∀ row ∈ pm, ∀ p ∈ row, p = 0) → image2spikes pm t = ([], [])) ∧
    ((∀ row ∈ pm, ∀ p ∈ row, p = 255) →
      image2spikes pm t =
        (List.range pm.flatten.length,
         List.replicate pm.flatten.length t)) ∧
    image2spikes [[0, 0, 0], [0, 200, 0], [0, 0, 0]] t = ([4], [t]) ∧
    image2spikes [[128]] t = ([], []) := by
  refine ⟨?_, ?_, ?_, ?_, ?_, rfl, rfl⟩
  · intro j
    rw [image2spikes_eq]
    show j ∈ scan_positions_spec pm.flatten 0 ↔ _
    rw [mem_scan_positions_spec]
    constructor
    · rintro ⟨i, hi, rfl, hp⟩
      simp only [Nat.zero_add]
      exact ⟨hi, hp⟩
    · rintro ⟨hj, hp⟩
      exact ⟨j, hj, (Nat.zero_add j).symm, hp⟩
  · rw [image2spikes_eq]
    exact scan_positions_spec_nodup _ _
  · rw [image2spikes_eq]
    show List.replicate _ t = List.replicate (scan_positions_spec _ 0).length t
    rw [scan_positions_spec_length]
  · intro hzero
    have hnone : ∀ p ∈ pm.flatten, ¬ 128 < p := by
      intro p hp
      rcases List.mem_flatten.mp hp with ⟨row, hrow, hmem⟩
      rw [hzero row hrow p hmem]
      omega
    rw [image2spikes_eq, scan_positions_spec_none _ hnone,
      List.countP_eq_zero.mpr (fun p hp => by simpa using hnone p hp)]
    rfl
  · intro h255
    have hall : ∀ p ∈ pm.flatten, 128 < p := by
      intro p hp
      rcases List.mem_flatten.mp hp with ⟨row, hrow, hmem⟩
      rw [h255 row hrow p hmem]
      omega
    rw [image2spikes_eq, scan_positions_spec_all _ hall,
      List.countP_eq_length.mpr (fun p hp => by simpa using hall p hp)]
    refine congrArg (fun x => (x, _)) ?_
    exact (List.map_congr_left (fun i _ => Nat.zero_add i)).trans
      (List.map_id' _)

/-- Witness for C8: the all-zero and the centre-dot grids. -/
theorem image2spikes_encoding_witness :
    ((∀ row ∈ [[(0 : ℕ), 0], [0, 0]], ∀ p ∈ row, p = 0) ∧
      image2spikes [[0, 0], [0, 0]] 0 = ([], [])) ∧
    image2spikes [[0, 0, 0], [0, 200, 0], [0, 0, 0]] (0 : ℚ) = ([4], [0]) :=
  ⟨⟨by decide, (image2spikes_encoding [[0, 0], [0, 0]] 0).2.2.2.1 (by decide)⟩,
    (image2spikes_encoding [[0, 0, 0], [0, 200, 0], [0, 0, 0]]
      0).2.2.2.2.2.1⟩

/-! ### Spike counting (C9) -/

lemma getD_map_lt {α β : Type} (f : α → β) (d : β) (d' : α) :
    ∀ (l : List α) (i : ℕ), i < l.length →
      (l.map f).getD i d = f (l.getD i d') := by
  intro l
  induction l with
  | nil => intro i hi; simp at hi
  | cons x xs ih =>
      intro i hi
      cases i with
      | zero => rfl
      | succ i => exact ih i (by simpa using hi)

lemma count_spikes_sum (st : List (List ℚ)) (a b : ℚ) :
    (count_spikes st a b).sum =
      (st.flatten.filter (fun v => decide (a ≤ v ∧ v < b))).length := by
  induction st with
  | nil => rfl
  | cons l ls ih =>
      simp only [count_spikes, List.map_cons, List.sum_cons,
        List.flatten_cons, List.filter_append, List.length_append]
      rw [← ih]
      rfl

lemma count_spikes_empty_window (st : List (List ℚ)) (a : ℚ) :
    count_spikes st a a = List.replicate st.length 0 := by
  have hf : ∀ l : List ℚ,
      l.filter (fun v => decide (a ≤ v ∧ v < a)) = [] := by
    intro l
    rw [List.filter_eq_nil_iff]
    intro v _
    simp only [decide_eq_true_eq, not_and]
    intro h1 h2
    exact absurd (lt_of_le_of_lt h1 h2) (lt_irrefl a)
  have hmap : count_spikes st a a = st.map (fun _ => 0) := by
    show st.map _ = st.map _
    exact List.map_congr_left (fun l _ => by rw [hf l]; rfl)
  rw [hmap, List.map_const']

/-- C9.  Spike counting: `count_spikes` returns one count per neuron in
population order, each counting exactly the timestamps `t` with
`start ≤ t < end`; the counts sum to the total number of in-window
timestamps across all neurons, and when `start = end` every count is
zero. -/
theorem count_spikes_window (st : List (List ℚ)) (a b : ℚ) :
    (count_spikes st a b).length = st.length ∧
    (∀ i, i < st.length →
      (count_spikes st a b).getD i 0 =
        ((st.getD i []).filter (fun v => decide (a ≤ v ∧ v < b))).length) ∧
    (count_spikes st a b).sum =
      (st.flatten.filter (fun v => decide (a ≤ v ∧ v < b))).length ∧
    count_spikes st a a = List.replicate st.length 0 := by
  refine ⟨by simp [count_spikes], ?_, count_spikes_sum st a b,
    count_spikes_empty_window st a⟩
  intro i hi
  exact getD_map_lt _ _ _ st i hi

/-- Witness for C9 on a concrete spike train and window. -/
theorem count_spikes_window_witness :
    0 < [[(1 : ℚ), 2, 3], [0, 5]].length ∧
    (count_spikes [[(1 : ℚ), 2, 3], [0, 5]] 2 5).getD 0 0 =
      (([[(1 : ℚ), 2, 3], [0, 5]].getD 0 []).filter
        (fun v => decide ((2 : ℚ) ≤ v ∧ v < 5))).length :=
  ⟨by decide,
    (count_spikes_window [[(1 : ℚ), 2, 3], [0, 5]] 2 5).2.1 0 (by decide)⟩

/-! ### Prediction and tie-break in `test_network` (C5) -/

/-- Running maximum of the counts of a list over a starting value. -/
def maxVal (l : List ℕ) (b : ℤ) : ℤ := l.foldr (fun v a => max (v : ℤ) a) b

lemma maxVal_cons (v : ℕ) (t : List ℕ) (b : ℤ) :
    maxVal (v :: t) b = max (v : ℤ) (maxVal t b) := rfl

lemma le_maxVal (l : List ℕ) (b : ℤ) : b ≤ maxVal l b := by
  induction l with
  | nil => exact le_refl b
  | cons v t ih => exact le_trans ih (le_max_right _ _)

lemma maxVal_max (l : List ℕ) (x y : ℤ) :
    maxVal l (max x y) = max x (maxVal l y) := by
  induction l with
  | nil => rfl
  | cons v t ih => rw [maxVal_cons, ih, maxVal_cons, max_left_comm]

lemma getD_le_maxVal (l : List ℕ) (b : ℤ) :
    ∀ j, j < l.length → ((l.getD j 0 : ℕ) : ℤ) ≤ maxVal l b := by
  induction l with
  | nil => intro j hj; exact absurd hj (Nat.not_lt_zero j)
  | cons v t ih =>
      intro j hj
      cases j with
      | zero => exact le_max_left _ _
      | succ j =>
          refine le_trans (ih j ?_) (le_max_right _ _)
          simp only [List.length_cons] at hj
          omega

lemma maxVal_lt_of (l : List ℕ) (b x : ℤ)
    (h : ∀ j, j < l.length → ((l.getD j 0 : ℕ) : ℤ) < x) (hb : b < x) :
    maxVal l b < x := by
  induction l with
  | nil => exact hb
  | cons v t ih =>
      rw [maxVal_cons]
      refine max_lt (h 0 (Nat.succ_pos _)) (ih ?_)
      intro j hj
      refine h (j + 1) ?_
      simp only [List.length_cons]
      omega

lemma predict_aux_value (l : List ℕ) :
    ∀ (i : ℕ) (b : Best) (c : Bool),
      (predict_aux l i b c).1.value = maxVal l b.value := by
  induction l with
  | nil => intro i b c; rfl
  | cons v t ih =>
      intro i b c
      rw [maxVal_cons]
      simp only [predict_aux]
      split_ifs with h1 h2
      · rw [ih, h1, max_eq_right (le_maxVal t b.value)]
      · rw [ih]
        have hmm := maxVal_max t (v : ℤ) b.value
        rw [max_eq_left (le_of_lt h2)] at hmm
        exact hmm
      · rw [ih, max_eq_right (le_trans (not_lt.mp h2) (le_maxVal t b.value))]

lemma predict_aux_best (l : List ℕ) :
    ∀ (i : ℕ) (b : Best) (c : Bool),
      (predict_aux l i b c).1 = b ∨
      ∃ j, j < l.length ∧
        (predict_aux l i b c).1 = ⟨i + j, ((l.getD j 0 : ℕ) : ℤ)⟩ ∧
        b.value < ((l.getD j 0 : ℕ) : ℤ) := by
  induction l with
  | nil => intro i b c; exact Or.inl rfl
  | cons v t ih =>
      intro i b c
      simp only [predict_aux]
      split_ifs with h1 h2
      · rcases ih (i + 1) b true with h | ⟨j, hj, he, hgt⟩
        · exact Or.inl h
        · refine Or.inr ⟨j + 1, by simp only [List.length_cons]; omega, ?_, hgt⟩
          rw [he, show i + 1 + j = i + (j + 1) from by omega]
          rfl
      · rcases ih (i + 1) ⟨i, (v : ℤ)⟩ false with h | ⟨j, hj, he, hgt⟩
        · refine Or.inr ⟨0, Nat.succ_pos _, ?_, by simpa using h2⟩
          rw [h]
          rfl
        · refine Or.inr ⟨j + 1, by simp only [List.length_cons]; omega, ?_,
            lt_trans h2 hgt⟩
          rw [he, show i + 1 + j = i + (j + 1) from by omega]
          rfl
      · rcases ih (i + 1) b c with h | ⟨j, hj, he, hgt⟩
        · exact Or.inl h
        · refine Or.inr ⟨j + 1, by simp only [List.length_cons]; omega, ?_, hgt⟩
          rw [he, show i + 1 + j = i + (j + 1) from by omega]
          rfl

lemma predict_aux_canceled (l : List ℕ) :
    ∀ (i : ℕ) (b : Best), maxVal l b.value = b.value →
      (predict_aux l i b true).2 = true := by
  induction l with
  | nil => intro i b _; rfl
  | cons v t ih =>
      intro i b hmax
      rw [maxVal_cons] at hmax
      have hv : (v : ℤ) ≤ b.value := by
        have h3 : (v : ℤ) ≤ max (v : ℤ) (maxVal t b.value) := le_max_left _ _
        rw [hmax] at h3
        exact h3
      have ht : maxVal t b.value = b.value := by
        have h3 : maxVal t b.value ≤ max (v : ℤ) (maxVal t b.value) :=
          le_max_right _ _
        rw [hmax] at h3
        exact le_antisymm h3 (le_maxVal t b.value)
      simp only [predict_aux]
      split_ifs with h1 h2
      · exact ih (i + 1) b ht
      · exact absurd h2 (not_lt.mpr hv)
      · exact ih (i + 1) b ht

lemma predict_aux_unique (l : List ℕ) :
    ∀ (i : ℕ) (b : Best) (c : Bool), (predict_aux l i b c).2 = false →
      ∀ j, j < l.length →
        ((l.getD j 0 : ℕ) : ℤ) = (predict_aux l i b c).1.value →
        (predict_aux l i b c).1.cls = i + j := by
  induction l with
  | nil => intro i b c _ j hj _; exact absurd hj (Nat.not_lt_zero j)
  | cons v t ih =>
      intro i b c hf j hj hv
      revert hf hv
      simp only [predict_aux]
      split_ifs with h1 h2
      · intro hf hv
        cases j with
        | zero =>
            exfalso
            have hval := predict_aux_value t (i + 1) b true
            have hv' : ((v : ℕ) : ℤ) =
                (predict_aux t (i + 1) b true).1.value := hv
            have hmax : maxVal t b.value = b.value := by
              rw [← hval, ← hv']
              exact h1
            exact absurd (predict_aux_canceled t (i + 1) b hmax)
              (by rw [hf]; exact Bool.false_ne_true)
        | succ j =>
            rw [show i + (j + 1) = i + 1 + j from by omega]
            exact ih (i + 1) b true hf j
              (by simp only [List.length_cons] at hj; omega) hv
      · intro hf hv
        cases j with
        | zero =>
            rcases predict_aux_best t (i + 1) ⟨i, (v : ℤ)⟩ false with
              h | ⟨j', hj', he, hgt⟩
            · rw [h]
              rfl
            · exfalso
              rw [he] at hv
              exact absurd (hv ▸ hgt) (lt_irrefl _)
        | succ j =>
            rw [show i + (j + 1) = i + 1 + j from by omega]
            exact ih (i + 1) ⟨i, (v : ℤ)⟩ false hf j
              (by simp only [List.length_cons] at hj; omega) hv
      · intro hf hv
        cases j with
        | zero =>
            exfalso
            have hval := predict_aux_value t (i + 1) b c
            have hlt : ((v : ℕ) : ℤ) < (predict_aux t (i + 1) b c).1.value := by
              rw [hval]
              exact lt_of_lt_of_le (lt_of_le_of_ne (not_lt.mp h2) h1)
                (le_maxVal t b.value)
            exact absurd (hv ▸ hlt) (lt_irrefl _)
        | succ j =>
            rw [show i + (j + 1) = i + 1 + j from by omega]
            exact ih (i + 1) b c hf j
              (by simp only [List.length_cons] at hj; omega) hv

lemma predict_aux_lt (l : List ℕ) :
    ∀ (i : ℕ) (b : Best) (c : Bool),
      (∀ j, j < l.length → ((l.getD j 0 : ℕ) : ℤ) < b.value) →
      predict_aux l i b c = (b, c) := by
  induction l with
  | nil => intro i b c _; rfl
  | cons v t ih =>
      intro i b c hlt
      have hv : (v : ℤ) < b.value := by simpa using hlt 0 (Nat.succ_pos _)
      simp only [predict_aux]
      rw [if_neg (ne_of_lt hv), if_neg (not_lt.mpr (le_of_lt hv))]
      refine ih (i + 1) b c (fun j hj => ?_)
      have := hlt (j + 1) (by simp only [List.length_cons]; omega)
      simpa using this

lemma predict_aux_append (l1 l2 : List ℕ) :
    ∀ (i : ℕ) (b : Best) (c : Bool),
      predict_aux (l1 ++ l2) i b c =
        predict_aux l2 (i + l1.length) (predict_aux l1 i b c).1
          (predict_aux l1 i b c).2 := by
  induction l1 with
  | nil => intro i b c; simp [predict_aux]
  | cons v t ih =>
      intro i b c
      have harith : i + 1 + t.length = i + (t.length + 1) := by omega
      simp only [List.cons_append, predict_aux, List.length_cons,
        List.append_eq]
      split_ifs with h1 h2
      · rw [ih, harith]
      · rw [ih, harith]
      · rw [ih, harith]

lemma getD_take_of_lt {α : Type} (l : List α) (d : α) (n j : ℕ) (h : j < n) :
    (l.take n).getD j d = l.getD j d := by
  simp [List.getD, List.get?_eq_getElem?, List.getElem?_take, h]

lemma getD_drop_add {α : Type} (l : List α) (d : α) (n j : ℕ) :
    (l.drop n).getD j d = l.getD (n + j) d := by
  simp [List.getD, List.get?_eq_getElem?, List.getElem?_drop]

/-- C5.  Test prediction and tie-break: a test sample is recorded as a
success if and only if its per-class active-neuron counts have a unique
strict maximum attained at the sample's label; any tie for the maximum
(even one involving the true label) is recorded as a failure. -/
theorem test_prediction_tie_break (counts : List ℕ) (label : ℕ)
    (hlab : label < counts.length) :
    sample_success counts label = true ↔
      ∀ j, j < counts.length → j ≠ label →
        counts.getD j 0 < counts.getD label 0 := by
  have hiff : sample_success counts label = true ↔
      ((predict_aux counts 0 ⟨0, -1⟩ false).1.cls = label ∧
       (predict_aux counts 0 ⟨0, -1⟩ false).2 = false) := by
    simp [sample_success, predict, Bool.and_eq_true, Bool.not_eq_true']
  rw [hiff]
  constructor
  · rintro ⟨hcls, hcanc⟩
    intro j hj hne
    rcases predict_aux_best counts 0 ⟨0, -1⟩ false with hb | ⟨j0, hj0, hb, _⟩
    · exfalso
      have hv := predict_aux_value counts 0 ⟨0, -1⟩ false
      rw [hb] at hv
      have h0 : ((counts.getD 0 0 : ℕ) : ℤ) ≤ maxVal counts (-1) :=
        getD_le_maxVal counts (-1) 0 (lt_of_le_of_lt (Nat.zero_le label) hlab)
      rw [← hv] at h0
      have := Int.natCast_nonneg (counts.getD 0 0)
      simp only [show (⟨0, -1⟩ : Best).value = -1 from rfl] at h0
      omega
    · have hj0lab : j0 = label := by
        rw [hb] at hcls
        simpa using hcls
      have hmaxeq : ((counts.getD label 0 : ℕ) : ℤ) = maxVal counts (-1) := by
        have hv := predict_aux_value counts 0 ⟨0, -1⟩ false
        rw [hb] at hv
        rw [← hj0lab]
        exact hv
      have hle : ((counts.getD j 0 : ℕ) : ℤ) ≤
          ((counts.getD label 0 : ℕ) : ℤ) := by
        rw [hmaxeq]
        exact getD_le_maxVal counts (-1) j hj
      have hneq : ((counts.getD j 0 : ℕ) : ℤ) ≠
          ((counts.getD label 0 : ℕ) : ℤ) := by
        intro heq
        have hveq : ((counts.getD j 0 : ℕ) : ℤ) =
            (predict_aux counts 0 ⟨0, -1⟩ false).1.value := by
          have hv := predict_aux_value counts 0 ⟨0, -1⟩ false
          rw [hv, ← hmaxeq, heq]
        have := predict_aux_unique counts 0 ⟨0, -1⟩ false hcanc j hj hveq
        rw [hcls] at this
        omega
      omega
  · intro hdom
    have hpre_len : (counts.take label).length = label := by
      rw [List.length_take]
      omega
    have hdecomp : counts = counts.take label ++
        counts.getD label 0 :: counts.drop (label + 1) := by
      conv_lhs => rw [← List.take_append_drop label counts]
      congr 1
      rw [List.drop_eq_getElem_cons hlab, List.getD_eq_getElem counts 0 hlab]
    have hBval := predict_aux_value (counts.take label) 0 ⟨0, -1⟩ false
    have hBlt : (predict_aux (counts.take label) 0 ⟨0, -1⟩ false).1.value <
        ((counts.getD label 0 : ℕ) : ℤ) := by
      rw [hBval]
      refine maxVal_lt_of _ _ _ (fun j hj => ?_) ?_
      · rw [hpre_len] at hj
        rw [getD_take_of_lt counts 0 label j hj]
        exact_mod_cast hdom j (by omega) (by omega)
      · have := Int.natCast_nonneg (counts.getD label 0)
        show (-1 : ℤ) < _
        omega
    have hmain : predict_aux counts 0 ⟨0, -1⟩ false =
        (⟨label, ((counts.getD label 0 : ℕ) : ℤ)⟩, false) := by
      conv_lhs => rw [hdecomp]
      rw [predict_aux_append]
      have hstep : predict_aux
          (counts.getD label 0 :: counts.drop (label + 1))
          (0 + (counts.take label).length)
          (predict_aux (counts.take label) 0 ⟨0, -1⟩ false).1
          (predict_aux (counts.take label) 0 ⟨0, -1⟩ false).2 =
          predict_aux (counts.drop (label + 1))
            (0 + (counts.take label).length + 1)
            ⟨0 + (counts.take label).length,
              ((counts.getD label 0 : ℕ) : ℤ)⟩ false := by
        simp only [predict_aux]
        rw [if_neg (ne_of_gt hBlt), if_pos hBlt]
      rw [hstep]
      rw [predict_aux_lt (counts.drop (label + 1)) _ _ _ (fun j hj => ?_)]
      · rw [Nat.zero_add, hpre_len]
      · show ((_ : ℕ) : ℤ) < ((counts.getD label 0 : ℕ) : ℤ)
        rw [getD_drop_add counts 0 (label + 1) j]
        rw [List.length_drop] at hj
        exact_mod_cast hdom (label + 1 + j) (by omega) (by omega)
    rw [hmain]
    exact ⟨rfl, rfl⟩

/-- Witness for C5: counts `[1,5,2]` with label `1`. -/
theorem test_prediction_tie_break_witness :
    1 < [1, 5, 2].length ∧
    (sample_success [1, 5, 2] 1 = true ↔
      ∀ j, j < [1, 5, 2].length → j ≠ 1 →
        [1, 5, 2].getD j 0 < [1, 5, 2].getD 1 0) :=
  ⟨by decide, test_prediction_tie_break [1, 5, 2] 1 (by decide)⟩

lemma clip_eq_self {w m : ℚ} (h0 : 0 ≤ w) (h1 : w ≤ m) : clip w 0 m = w := by
  unfold clip
  rw [max_eq_left h0, min_eq_left h1]

lemma clip_nonneg {m : ℚ} (hm : 0 ≤ m) (x : ℚ) : 0 ≤ clip x 0 m :=
  le_min (le_max_right x 0) hm

lemma clip_le (x m : ℚ) : clip x 0 m ≤ m := min_le_right _ _

/-! ### The Zeng STDP update rule (C1) -/

lemma on_pre_spec (e : ℚ → ℚ) (p : STDPParams) (t : ℚ) (s : SynState)
    (he : e 0 = 1) (hw0 : 0 ≤ s.w) (hw1 : s.w ≤ p.w_max) :
    (on_pre e p t s).I_m = s.I_m + s.w ∧
    (on_pre e p t s).P =
      (if s.t_prs < 0 then s.P + p.ALTP
       else s.P * e ((s.t_prs - t) / p.tau_LTP) + p.ALTP) ∧
    (on_pre e p t s).t_prs = t ∧
    (on_pre e p t s).w =
      (if 0 ≤ s.t_pos ∧ s.t_pos < t then
        clip (s.w + p.aLTD * s.Q * e ((s.t_pos - t) / p.tau_LTD)) 0 p.w_max
       else s.w) := by
  refine ⟨rfl, ?_, rfl, ?_⟩
  · show s.P * e ((boolInd (s.t_prs < 0) * t + boolInd (0 ≤ s.t_prs) * s.t_prs
        - t) / p.tau_LTP) + p.ALTP = _
    rcases lt_or_le s.t_prs 0 with h | h
    · rw [if_pos h]
      unfold boolInd
      rw [if_pos h, if_neg (not_le.mpr h)]
      simp [he]
    · rw [if_neg (not_lt.mpr h)]
      unfold boolInd
      rw [if_neg (not_lt.mpr h), if_pos h]
      simp
  · show clip (s.w + boolInd (0 ≤ s.t_pos ∧ s.t_pos < t) * p.aLTD * s.Q *
        e ((s.t_pos - t) / p.tau_LTD)) 0 p.w_max = _
    by_cases h : 0 ≤ s.t_pos ∧ s.t_pos < t
    · rw [if_pos h]
      unfold boolInd
      rw [if_pos h, one_mul]
    · rw [if_neg h]
      unfold boolInd
      rw [if_neg h, zero_mul, zero_mul, zero_mul, add_zero, clip_eq_self hw0 hw1]

lemma on_post_spec (e : ℚ → ℚ) (p : STDPParams) (t : ℚ) (s : SynState)
    (he : e 0 = 1) (hw0 : 0 ≤ s.w) (hw1 : s.w ≤ p.w_max) :
    (on_post e p t s).Q =
      (if s.t_pos < 0 then s.Q + p.ALTD
       else s.Q * e ((s.t_pos - t) / p.tau_LTD) + p.ALTD) ∧
    (on_post e p t s).t_pos = t ∧
    (on_post e p t s).w =
      (if 0 ≤ s.t_prs ∧ s.t_prs < t then
        clip (s.w + p.aLTP * s.P * e ((s.t_prs - t) / p.tau_LTP)) 0 p.w_max
       else s.w) := by
  refine ⟨?_, rfl, ?_⟩
  · show s.Q * e ((boolInd (s.t_pos < 0) * t + boolInd (0 ≤ s.t_pos) * s.t_pos
        - t) / p.tau_LTD) + p.ALTD = _
    rcases lt_or_le s.t_pos 0 with h | h
    · rw [if_pos h]
      unfold boolInd
      rw [if_pos h, if_neg (not_le.mpr h)]
      simp [he]
    · rw [if_neg (not_lt.mpr h)]
      unfold boolInd
      rw [if_neg (not_lt.mpr h), if_pos h]
      simp
  · show clip (s.w + boolInd (0 ≤ s.t_prs ∧ s.t_prs < t) * p.aLTP * s.P *
        e ((s.t_prs - t) / p.tau_LTP)) 0 p.w_max = _
    by_cases h : 0 ≤ s.t_prs ∧ s.t_prs < t
    · rw [if_pos h]
      unfold boolInd
      rw [if_pos h, one_mul]
    · rw [if_neg h]
      unfold boolInd
      rw [if_neg h, zero_mul, zero_mul, zero_mul, add_zero, clip_eq_self hw0 hw1]

/-- C1.  Zeng STDP per-synapse update: on a presynaptic spike at time `t`
the rule adds `w` to the postsynaptic input current, decays `P` by
`exp((t_prs - t)/tau_LTP)` treating the elapsed decay as zero when `t_prs`
still holds the negative no-spike sentinel, adds `ALTP` to `P`, sets
`t_prs = t`, and changes the weight by
`val = aLTD * Q * exp((t_pos - t)/tau_LTD)` followed by clipping to
`[0, w_max]` exactly when a postsynaptic spike is on record with
`0 ≤ t_pos < t`; symmetrically on a postsynaptic spike the rule decays and
updates `Q` with `ALTD`, sets `t_pos = t`, and changes the weight by
`val = aLTP * P * exp((t_prs - t)/tau_LTP)` followed by clipping exactly
when a presynaptic spike is on record with `0 ≤ t_prs < t`. -/
theorem zeng_stdp_update (e : ℚ → ℚ) (p : STDPParams) (t : ℚ) (s : SynState)
    (he : e 0 = 1) (hw0 : 0 ≤ s.w) (hw1 : s.w ≤ p.w_max) :
    ((on_pre e p t s).I_m = s.I_m + s.w ∧
     (on_pre e p t s).P =
       (if s.t_prs < 0 then s.P + p.ALTP
        else s.P * e ((s.t_prs - t) / p.tau_LTP) + p.ALTP) ∧
     (on_pre e p t s).t_prs = t ∧
     (on_pre e p t s).w =
       (if 0 ≤ s.t_pos ∧ s.t_pos < t then
         clip (s.w + p.aLTD * s.Q * e ((s.t_pos - t) / p.tau_LTD)) 0 p.w_max
        else s.w)) ∧
    ((on_post e p t s).Q =
       (if s.t_pos < 0 then s.Q + p.ALTD
        else s.Q * e ((s.t_pos - t) / p.tau_LTD) + p.ALTD) ∧
     (on_post e p t s).t_pos = t ∧
     (on_post e p t s).w =
       (if 0 ≤ s.t_prs ∧ s.t_prs < t then
         clip (s.w + p.aLTP * s.P * e ((s.t_prs - t) / p.tau_LTP)) 0 p.w_max
        else s.w)) :=
  ⟨on_pre_spec e p t s he hw0 hw1, on_post_spec e p t s he hw0 hw1⟩

/-- Witness for C1 at a concrete synapse state and parameter set. -/
theorem zeng_stdp_update_witness :
    (fun _ : ℚ => (1 : ℚ)) 0 = 1 ∧
    0 ≤ (⟨-1, 3, 2, 5, 1, 0, 0, 0, 0⟩ : SynState).w ∧
    (⟨-1, 3, 2, 5, 1, 0, 0, 0, 0⟩ : SynState).w ≤
      (⟨1, 1, 1, 1, 1, 1, 1⟩ : STDPParams).w_max ∧
    (on_pre (fun _ => 1) ⟨1, 1, 1, 1, 1, 1, 1⟩ 10
        ⟨-1, 3, 2, 5, 1, 0, 0, 0, 0⟩).I_m =
      (⟨-1, 3, 2, 5, 1, 0, 0, 0, 0⟩ : SynState).I_m +
        (⟨-1, 3, 2, 5, 1, 0, 0, 0, 0⟩ : SynState).w ∧
    (on_post (fun _ => 1) ⟨1, 1, 1, 1, 1, 1, 1⟩ 10
        ⟨-1, 3, 2, 5, 1, 0, 0, 0, 0⟩).t_pos = 10 :=
  ⟨rfl, zero_le_one, le_refl 1,
    (zeng_stdp_update (fun _ => 1) ⟨1, 1, 1, 1, 1, 1, 1⟩ 10
      ⟨-1, 3, 2, 5, 1, 0, 0, 0, 0⟩ rfl zero_le_one (le_refl 1)).1.1,
    (zeng_stdp_update (fun _ => 1) ⟨1, 1, 1, 1, 1, 1, 1⟩ 10
      ⟨-1, 3, 2, 5, 1, 0, 0, 0, 0⟩ rfl zero_le_one (le_refl 1)).2.2.1⟩

/-! ### The weight invariant (C2) -/

lemma stdp_step_w_bounds (e : ℚ → ℚ) (p : STDPParams) (s : SynState)
    (ev : SpikeEv) (hm : 0 ≤ p.w_max) :
    0 ≤ (stdp_step e p s ev).w ∧ (stdp_step e p s ev).w ≤ p.w_max := by
  cases ev with
  | pre t => exact ⟨clip_nonneg hm _, clip_le _ _⟩
  | post t => exact ⟨clip_nonneg hm _, clip_le _ _⟩

lemma stdp_run_w_bounds (e : ℚ → ℚ) (p : STDPParams) (hm : 0 ≤ p.w_max) :
    ∀ (evs : List SpikeEv) (s : SynState), 0 ≤ s.w → s.w ≤ p.w_max →
      0 ≤ (stdp_run e p s evs).w ∧ (stdp_run e p s evs).w ≤ p.w_max := by
  intro evs
  induction evs with
  | nil => exact fun s h0 h1 => ⟨h0, h1⟩
  | cons ev rest ih =>
      intro s _ _
      have hstep := stdp_step_w_bounds e p s ev hm
      exact ih (stdp_step e p s ev) hstep.1 hstep.2

/-- C2.  Weight invariant: a synapse whose weight is initialised as
`w = rand() * w_max` starts inside `[0, w_max]`, and after any finite
sequence of presynaptic/postsynaptic plasticity updates the weight still
satisfies `0 ≤ w ≤ w_max` (so in particular it does after every
individual update of the sequence). -/
theorem zeng_weight_invariant (e : ℚ → ℚ) (p : STDPParams) (r : ℚ)
    (s : SynState) (hm : 0 ≤ p.w_max) (hr0 : 0 ≤ r) (hr1 : r ≤ 1)
    (hw : s.w = r * p.w_max) (evs : List SpikeEv) :
    (0 ≤ s.w ∧ s.w ≤ p.w_max) ∧
    (0 ≤ (stdp_run e p s evs).w ∧ (stdp_run e p s evs).w ≤ p.w_max) := by
  have h0 : 0 ≤ s.w := by rw [hw]; exact mul_nonneg hr0 hm
  have h1 : s.w ≤ p.w_max := by rw [hw]; exact mul_le_of_le_one_left hm hr1
  exact ⟨⟨h0, h1⟩, stdp_run_w_bounds e p hm evs s h0 h1⟩

/-- Witness for C2 on a concrete synapse and a concrete spike sequence. -/
theorem zeng_weight_invariant_witness :
    0 ≤ (⟨1, 1, 1, 1, 1, 1, 1⟩ : STDPParams).w_max ∧ (0 : ℚ) ≤ 1 ∧
    (1 : ℚ) ≤ 1 ∧
    (⟨-1, -1, 0, 0, 1, 0, 0, 0, 0⟩ : SynState).w =
      1 * (⟨1, 1, 1, 1, 1, 1, 1⟩ : STDPParams).w_max ∧
    (0 ≤ (stdp_run (fun _ => 1) ⟨1, 1, 1, 1, 1, 1, 1⟩
        ⟨-1, -1, 0, 0, 1, 0, 0, 0, 0⟩ [.pre 5, .post 7]).w ∧
     (stdp_run (fun _ => 1) ⟨1, 1, 1, 1, 1, 1, 1⟩
        ⟨-1, -1, 0, 0, 1, 0, 0, 0, 0⟩ [.pre 5, .post 7]).w ≤
       (⟨1, 1, 1, 1, 1, 1, 1⟩ : STDPParams).w_max) :=
  ⟨zero_le_one, zero_le_one, le_refl 1, (one_mul (1 : ℚ)).symm,
    (zeng_weight_invariant (fun _ => 1) ⟨1, 1, 1, 1, 1, 1, 1⟩ 1
      ⟨-1, -1, 0, 0, 1, 0, 0, 0, 0⟩ zero_le_one zero_le_one (le_refl 1)
      (one_mul (1 : ℚ)).symm [.pre 5, .post 7]).2⟩

/-! ### Marker assignment (C3, C4) -/

/-- The member ids of one class block:
`[class_id * class_size, ..., class_id * class_size + class_size - 1]`. -/
def class_block (class_id class_size : ℕ) : List ℕ :=
  (List.range class_size).map (fun i => class_id * class_size + i)

lemma mem_class_block {c cs n : ℕ} :
    n ∈ class_block c cs ↔ ∃ i, i < cs ∧ n = c * cs + i := by
  simp only [class_block, List.mem_map, List.mem_range]
  constructor
  · rintro ⟨i, hi, rfl⟩
    exact ⟨i, hi, rfl⟩
  · rintro ⟨i, hi, rfl⟩
    exact ⟨i, hi, rfl⟩

lemma class_block_nodup (c cs : ℕ) : (class_block c cs).Nodup := by
  refine (List.nodup_range cs).map ?_
  intro a b hab
  have hab' : c * cs + a = c * cs + b := hab
  omega

lemma class_block_disjoint {c c' cs n : ℕ} (hne : c ≠ c')
    (h1 : n ∈ class_block c cs) (h2 : n ∈ class_block c' cs) : False := by
  rcases mem_class_block.mp h1 with ⟨i, hi, he⟩
  rcases mem_class_block.mp h2 with ⟨i', hi', he'⟩
  have hcpos : 0 < cs := lt_of_le_of_lt (Nat.zero_le i) hi
  have e1 : n / cs = c := by
    rw [he, mul_comm, Nat.mul_add_div hcpos, Nat.div_eq_of_lt hi,
      Nat.add_zero]
  have e2 : n / cs = c' := by
    rw [he', mul_comm, Nat.mul_add_div hcpos, Nat.div_eq_of_lt hi',
      Nat.add_zero]
  omega

lemma class_partition_eq (spikes : List ℕ) (c cs : ℕ) :
    class_partition spikes c cs =
      ((class_block c cs).filter (fun m => decide (0 < spikes.getD m 0)),
       (class_block c cs).filter
         (fun m => !(decide (0 < spikes.getD m 0)))) := by
  suffices h : ∀ (l : List ℕ) (a1 a2 : List ℕ),
      l.foldl (fun acc i =>
        if 0 < spikes.getD (c * cs + i) 0 then
          (acc.1 ++ [c * cs + i], acc.2)
        else (acc.1, acc.2 ++ [c * cs + i])) (a1, a2) =
      (a1 ++ (l.map (fun i => c * cs + i)).filter
          (fun m => decide (0 < spikes.getD m 0)),
       a2 ++ (l.map (fun i => c * cs + i)).filter
          (fun m => !(decide (0 < spikes.getD m 0)))) by
    show (List.range cs).foldl _ ([], []) = _
    rw [h (List.range cs) [] []]
    simp only [List.nil_append]
    rfl
  intro l
  induction l with
  | nil => intro a1 a2; simp
  | cons i t ih =>
      intro a1 a2
      by_cases hp : 0 < spikes.getD (c * cs + i) 0
      · have hd : decide (0 < spikes.getD (c * cs + i) 0) = true := by
          simpa using hp
        simp only [List.foldl_cons, if_pos hp, ih, List.map_cons,
          List.filter_cons, hd, Bool.not_true, Prod.mk.injEq]
        simp [List.append_assoc]
      · have hd : decide (0 < spikes.getD (c * cs + i) 0) = false := by
          simpa using hp
        simp only [List.foldl_cons, if_neg hp, ih, List.map_cons,
          List.filter_cons, hd, Bool.not_false, Prod.mk.injEq]
        simp [List.append_assoc]

lemma getD_map_range {α : Type} (f : ℕ → α) (d : α) {ca c : ℕ} (hc : c < ca) :
    ((List.range ca).map f).getD c d = f c := by
  have h1 : c < ((List.range ca).map f).length := by simpa using hc
  rw [List.getD_eq_getElem _ _ h1]
  simp

lemma ids_fst_getD (spikes : List ℕ) (cs ca : ℕ) {c : ℕ} (hc : c < ca) :
    (get_class_spike_ids spikes cs ca).1.getD c [] =
      (class_block c cs).filter (fun m => decide (0 < spikes.getD m 0)) := by
  show ((List.range ca).map
      (fun class_id => (class_partition spikes class_id cs).1)).getD c [] = _
  rw [getD_map_range _ _ hc, class_partition_eq]

lemma ids_snd_getD (spikes : List ℕ) (cs ca : ℕ) {c : ℕ} (hc : c < ca) :
    (get_class_spike_ids spikes cs ca).2.getD c [] =
      (class_block c cs).filter
        (fun m => !(decide (0 < spikes.getD m 0))) := by
  show ((List.range ca).map
      (fun class_id => (class_partition spikes class_id cs).2)).getD c [] = _
  rw [getD_map_range _ _ hc, class_partition_eq]

lemma length_filter_split {α : Type} (l : List α) (p : α → Bool) :
    (l.filter p).length + (l.filter (fun a => !(p a))).length = l.length := by
  induction l with
  | nil => rfl
  | cons x t ih =>
      cases hx : p x with
      | true => simp [List.filter_cons, hx, ← ih]; omega
      | false => simp [List.filter_cons, hx, ← ih]; omega

lemma spk_getD_nodup (spikes : List ℕ) (cs ca : ℕ) {c : ℕ} (hc : c < ca) :
    ((get_class_spike_ids spikes cs ca).1.getD c []).Nodup := by
  rw [ids_fst_getD spikes cs ca hc]
  exact (class_block_nodup c cs).filter _

lemma nspk_getD_nodup (spikes : List ℕ) (cs ca : ℕ) {c : ℕ} (hc : c < ca) :
    ((get_class_spike_ids spikes cs ca).2.getD c []).Nodup := by
  rw [ids_snd_getD spikes cs ca hc]
  exact (class_block_nodup c cs).filter _

lemma spk_getD_subset (spikes : List ℕ) (cs ca : ℕ) {c : ℕ} (hc : c < ca) :
    ∀ n ∈ (get_class_spike_ids spikes cs ca).1.getD c [],
      n ∈ class_block c cs := by
  rw [ids_fst_getD spikes cs ca hc]
  intro n hn
  exact (List.mem_filter.mp hn).1

lemma nspk_getD_subset (spikes : List ℕ) (cs ca : ℕ) {c : ℕ} (hc : c < ca) :
    ∀ n ∈ (get_class_spike_ids spikes cs ca).2.getD c [],
      n ∈ class_block c cs := by
  rw [ids_snd_getD spikes cs ca hc]
  intro n hn
  exact (List.mem_filter.mp hn).1

lemma spk_nspk_length (spikes : List ℕ) (cs ca : ℕ) {c : ℕ} (hc : c < ca) :
    ((get_class_spike_ids spikes cs ca).1.getD c []).length +
      ((get_class_spike_ids spikes cs ca).2.getD c []).length = cs := by
  rw [ids_fst_getD spikes cs ca hc, ids_snd_getD spikes cs ca hc,
    length_filter_split]
  simp [class_block]

lemma pot_loop_spec (pick : ℕ → List ℕ → ℕ)
    (hpick : ∀ k l, l ≠ [] → pick k l ∈ l) :
    ∀ (k : ℕ) (st : MarkSt) (ns : List ℕ),
      ns.Nodup → st.hold_list.Nodup → (∀ n ∈ ns, n ∈ st.hold_list) →
      k ≤ ns.length →
      ∃ sel : List ℕ,
        sel.Nodup ∧ sel.length = k ∧ (∀ n ∈ sel, n ∈ ns) ∧
        (∀ n, (pot_loop pick k st ns).1.flags.potentiate n =
          if n ∈ sel then 1 else st.flags.potentiate n) ∧
        (pot_loop pick k st ns).1.flags.depress = st.flags.depress ∧
        (pot_loop pick k st ns).1.flags.hold = st.flags.hold ∧
        (pot_loop pick k st ns).1.hold_list.Nodup ∧
        (∀ n, n ∈ (pot_loop pick k st ns).1.hold_list ↔
          n ∈ st.hold_list ∧ n ∉ sel) := by
  intro k
  induction k with
  | zero =>
      intro st ns _ hhl _ _
      exact ⟨[], List.nodup_nil, rfl,
        fun n hn => absurd hn (List.not_mem_nil n),
        fun n => by simp [pot_loop], rfl, rfl, hhl,
        fun n => by simp [pot_loop]⟩
  | succ k ih =>
      intro st ns hns hhl hsub hk
      have hne : ns ≠ [] := List.length_pos.mp (by omega)
      have hmem : pick st.pick_idx ns ∈ ns := hpick _ _ hne
      have hstep : pot_loop pick (k + 1) st ns =
          pot_loop pick k
            { flags :=
                { potentiate :=
                    setFlag st.flags.potentiate (pick st.pick_idx ns) 1,
                  depress := st.flags.depress, hold := st.flags.hold },
              hold_list := st.hold_list.erase (pick st.pick_idx ns),
              pick_idx := st.pick_idx + 1 }
            (ns.erase (pick st.pick_idx ns)) := rfl
      have hns1 : (ns.erase (pick st.pick_idx ns)).Nodup :=
        hns.erase _
      have hhl1 : (st.hold_list.erase (pick st.pick_idx ns)).Nodup :=
        hhl.erase _
      have hsub1 : ∀ n ∈ ns.erase (pick st.pick_idx ns),
          n ∈ st.hold_list.erase (pick st.pick_idx ns) := by
        intro n hn
        have h1 := hns.mem_erase_iff.mp hn
        exact hhl.mem_erase_iff.mpr ⟨h1.1, hsub n h1.2⟩
      have hk1 : k ≤ (ns.erase (pick st.pick_idx ns)).length := by
        rw [List.length_erase_of_mem hmem]
        omega
      obtain ⟨sel, hnd, hlen, hselsub, hpot, hdep, hhold, hhn, hhmem⟩ :=
        ih { flags :=
              { potentiate :=
                  setFlag st.flags.potentiate (pick st.pick_idx ns) 1,
                depress := st.flags.depress, hold := st.flags.hold },
             hold_list := st.hold_list.erase (pick st.pick_idx ns),
             pick_idx := st.pick_idx + 1 }
          (ns.erase (pick st.pick_idx ns)) hns1 hhl1 hsub1 hk1
      refine ⟨pick st.pick_idx ns :: sel, ?_, by simp [hlen], ?_, ?_, ?_,
        ?_, ?_, ?_⟩
      · refine List.nodup_cons.mpr ⟨fun hcon => ?_, hnd⟩
        exact (hns.mem_erase_iff.mp (hselsub _ hcon)).1 rfl
      · intro n hn
        rcases List.mem_cons.mp hn with rfl | hn
        · exact hmem
        · exact List.mem_of_mem_erase (hselsub n hn)
      · intro n
        rw [hstep, hpot n]
        by_cases hsel : n ∈ sel
        · simp [hsel]
        · rw [if_neg hsel]
          show setFlag st.flags.potentiate (pick st.pick_idx ns) 1 n = _
          unfold setFlag
          by_cases hn : n = pick st.pick_idx ns
          · simp [hn]
          · simp [hn, hsel]
      · rw [hstep]
        exact hdep
      · rw [hstep]
        exact hhold
      · rw [hstep]
        exact hhn
      · intro n
        rw [hstep, hhmem n]
        constructor
        · rintro ⟨h1, h2⟩
          have h3 := hhl.mem_erase_iff.mp h1
          refine ⟨h3.2, ?_⟩
          simp only [List.mem_cons, not_or]
          exact ⟨h3.1, h2⟩
        · rintro ⟨h1, h2⟩
          simp only [List.mem_cons, not_or] at h2
          exact ⟨hhl.mem_erase_iff.mpr ⟨h2.1, h1⟩, h2.2⟩

lemma dep_loop_spec (pick : ℕ → List ℕ → ℕ)
    (hpick : ∀ k l, l ≠ [] → pick k l ∈ l) :
    ∀ (k : ℕ) (st : MarkSt) (sp : List ℕ),
      sp.Nodup → k ≤ sp.length →
      ∃ sel : List ℕ,
        sel.Nodup ∧ sel.length = k ∧ (∀ n ∈ sel, n ∈ sp) ∧
        (∀ n, (dep_loop pick k st sp).1.flags.depress n =
          if n ∈ sel then 1 else st.flags.depress n) ∧
        (dep_loop pick k st sp).1.flags.potentiate = st.flags.potentiate ∧
        (dep_loop pick k st sp).1.flags.hold = st.flags.hold ∧
        (dep_loop pick k st sp).1.hold_list = st.hold_list := by
  intro k
  induction k with
  | zero =>
      intro st sp _ _
      exact ⟨[], List.nodup_nil, rfl,
        fun n hn => absurd hn (List.not_mem_nil n),
        fun n => by simp [dep_loop], rfl, rfl, rfl⟩
  | succ k ih =>
      intro st sp hsp hk
      have hne : sp ≠ [] := List.length_pos.mp (by omega)
      have hmem : pick st.pick_idx sp ∈ sp := hpick _ _ hne
      have hstep : dep_loop pick (k + 1) st sp =
          dep_loop pick k
            { flags :=
                { potentiate := st.flags.potentiate,
                  depress := setFlag st.flags.depress (pick st.pick_idx sp) 1,
                  hold := st.flags.hold },
              hold_list := st.hold_list,
              pick_idx := st.pick_idx + 1 }
            (sp.erase (pick st.pick_idx sp)) := rfl
      have hsp1 : (sp.erase (pick st.pick_idx sp)).Nodup := hsp.erase _
      have hk1 : k ≤ (sp.erase (pick st.pick_idx sp)).length := by
        rw [List.length_erase_of_mem hmem]
        omega
      obtain ⟨sel, hnd, hlen, hselsub, hdep, hpot, hhold, hhl⟩ :=
        ih { flags :=
              { potentiate := st.flags.potentiate,
                depress := setFlag st.flags.depress (pick st.pick_idx sp) 1,
                hold := st.flags.hold },
             hold_list := st.hold_list,
             pick_idx := st.pick_idx + 1 }
          (sp.erase (pick st.pick_idx sp)) hsp1 hk1
      refine ⟨pick st.pick_idx sp :: sel, ?_, by simp [hlen], ?_, ?_, ?_,
        ?_, ?_⟩
      · refine List.nodup_cons.mpr ⟨fun hcon => ?_, hnd⟩
        exact (hsp.mem_erase_iff.mp (hselsub _ hcon)).1 rfl
      · intro n hn
        rcases List.mem_cons.mp hn with rfl | hn
        · exact hmem
        · exact List.mem_of_mem_erase (hselsub n hn)
      · intro n
        rw [hstep, hdep n]
        by_cases hsel : n ∈ sel
        · simp [hsel]
        · rw [if_neg hsel]
          show setFlag st.flags.depress (pick st.pick_idx sp) 1 n = _
          unfold setFlag
          by_cases hn : n = pick st.pick_idx sp
          · simp [hn]
          · simp [hn, hsel]
      · rw [hstep]
        exact hpot
      · rw [hstep]
        exact hhold
      · rw [hstep]
        exact hhl

lemma mark_step_nontarget (pick : ℕ → List ℕ → ℕ)
    (hpick : ∀ k l, l ≠ [] → pick k l ∈ l)
    (label cs act inact : ℕ) (spk nspk : List (List ℕ)) (st : MarkSt)
    {c : ℕ} (hc : c ≠ label) (hnodup : (spk.getD c []).Nodup) :
    ∃ sel : List ℕ,
      sel.Nodup ∧
      sel.length = (if inact < (spk.getD c []).length then
        (spk.getD c []).length - inact else 0) ∧
      (∀ n ∈ sel, n ∈ spk.getD c []) ∧
      (∀ n, (mark_step pick label cs act inact spk nspk st c).flags.depress n
        = if n ∈ sel then 1 else st.flags.depress n) ∧
      (mark_step pick label cs act inact spk nspk st c).flags.potentiate
        = st.flags.potentiate ∧
      (mark_step pick label cs act inact spk nspk st c).flags.hold
        = st.flags.hold ∧
      (mark_step pick label cs act inact spk nspk st c).hold_list
        = st.hold_list := by
  unfold mark_step
  rw [if_neg hc]
  by_cases hit : inact < (spk.getD c []).length
  · simp only [if_pos hit]
    obtain ⟨sel, hnd, hlen, hsub, hdep, hpot, hhold, hhl⟩ :=
      dep_loop_spec pick hpick ((spk.getD c []).length - inact) st
        (spk.getD c []) hnodup (by omega)
    exact ⟨sel, hnd, hlen, hsub, hdep, hpot, hhold, hhl⟩
  · simp only [if_neg hit]
    exact ⟨[], List.nodup_nil, rfl,
      fun n hn => absurd hn (List.not_mem_nil n), fun n => by simp,
      trivial, trivial, trivial⟩

lemma mark_step_target (pick : ℕ → List ℕ → ℕ)
    (hpick : ∀ k l, l ≠ [] → pick k l ∈ l)
    (label cs act inact : ℕ) (spk nspk : List (List ℕ)) (st : MarkSt)
    (hnodup : (nspk.getD label []).Nodup)
    (hsub : ∀ n ∈ nspk.getD label [], n ∈ class_block label cs)
    (hhl : st.hold_list = [])
    (hlen : act - (spk.getD label []).length ≤
      (nspk.getD label []).length) :
    (((spk.getD label []).length < act) →
      ∃ sel : List ℕ, sel.Nodup ∧
        sel.length = act - (spk.getD label []).length ∧
        (∀ n ∈ sel, n ∈ nspk.getD label []) ∧
        (∀ n, (mark_step pick label cs act inact spk nspk st
          label).flags.potentiate n =
          if n ∈ sel then 1 else st.flags.potentiate n) ∧
        (mark_step pick label cs act inact spk nspk st
          label).flags.depress = st.flags.depress ∧
        (mark_step pick label cs act inact spk nspk st
          label).flags.hold = st.flags.hold ∧
        (mark_step pick label cs act inact spk nspk st
          label).hold_list.Nodup ∧
        (∀ n, n ∈ (mark_step pick label cs act inact spk nspk st
          label).hold_list ↔ n ∈ class_block label cs ∧ n ∉ sel)) ∧
    ((act ≤ (spk.getD label []).length) →
      (mark_step pick label cs act inact spk nspk st label).flags
        = st.flags ∧
      (mark_step pick label cs act inact spk nspk st label).hold_list
        = class_block label cs) := by
  constructor
  · intro hdef
    unfold mark_step
    rw [if_pos rfl, if_pos hdef]
    have hblock : st.hold_list ++ (List.range cs).map
        (fun n => label * cs + n) = class_block label cs := by
      rw [hhl]
      rfl
    obtain ⟨sel, hnd, hlen', hsub', hpot, hdep, hhold, hhn, hhmem⟩ :=
      pot_loop_spec pick hpick (act - (spk.getD label []).length)
        { st with
            hold_list := st.hold_list ++ (List.range cs).map
              (fun n => label * cs + n) }
        (nspk.getD label []) hnodup
        (by rw [hblock]; exact class_block_nodup label cs)
        (by intro n hn; rw [hblock]; exact hsub n hn) hlen
    refine ⟨sel, hnd, hlen', hsub', hpot, hdep, hhold, hhn, fun n => ?_⟩
    rw [hhmem n, hblock]
  · intro hact
    unfold mark_step
    rw [if_pos rfl, if_neg (not_lt.mpr hact)]
    exact ⟨rfl, by rw [hhl]; rfl⟩

lemma hold_fold (hl : List ℕ) :
    ∀ fl : Flags,
      (hl.foldl (fun f neuron =>
        { potentiate := f.potentiate, depress := f.depress,
          hold := setFlag f.hold neuron 1 }) fl).potentiate
        = fl.potentiate ∧
      (hl.foldl (fun f neuron =>
        { potentiate := f.potentiate, depress := f.depress,
          hold := setFlag f.hold neuron 1 }) fl).depress = fl.depress ∧
      (∀ n, (hl.foldl (fun f neuron =>
        { potentiate := f.potentiate, depress := f.depress,
          hold := setFlag f.hold neuron 1 }) fl).hold n =
        if n ∈ hl then 1 else fl.hold n) := by
  induction hl with
  | nil => intro fl; exact ⟨rfl, rfl, fun n => by simp⟩
  | cons h t ih =>
      intro fl
      obtain ⟨hp, hd, hh⟩ := ih
        { potentiate := fl.potentiate, depress := fl.depress,
          hold := setFlag fl.hold h 1 }
      refine ⟨hp, hd, fun n => ?_⟩
      rw [List.foldl_cons, hh n]
      show _ = if n ∈ h :: t then 1 else fl.hold n
      unfold setFlag
      by_cases ht : n ∈ t
      · simp [ht]
      · by_cases hn : n = h
        · simp [ht, hn]
        · simp [ht, hn]

lemma fold_nontarget (pick : ℕ → List ℕ → ℕ)
    (hpick : ∀ k l, l ≠ [] → pick k l ∈ l)
    (label cs act inact : ℕ) (spk nspk : List (List ℕ)) :
    ∀ (cls : List ℕ), label ∉ cls → cls.Nodup →
      (∀ c ∈ cls, (spk.getD c []).Nodup) →
      ∀ st : MarkSt,
      ∃ f : ℕ → List ℕ,
        (∀ c, c ∉ cls → f c = []) ∧
        (∀ c ∈ cls, (f c).Nodup ∧ (∀ n ∈ f c, n ∈ spk.getD c []) ∧
          (f c).length = (if inact < (spk.getD c []).length then
            (spk.getD c []).length - inact else 0)) ∧
        (cls.foldl (mark_step pick label cs act inact spk nspk)
          st).flags.potentiate = st.flags.potentiate ∧
        (cls.foldl (mark_step pick label cs act inact spk nspk)
          st).flags.hold = st.flags.hold ∧
        (cls.foldl (mark_step pick label cs act inact spk nspk)
          st).hold_list = st.hold_list ∧
        (∀ n, (∃ c ∈ cls, n ∈ f c) →
          (cls.foldl (mark_step pick label cs act inact spk nspk)
            st).flags.depress n = 1) ∧
        (∀ n, (∀ c ∈ cls, n ∉ f c) →
          (cls.foldl (mark_step pick label cs act inact spk nspk)
            st).flags.depress n = st.flags.depress n) := by
  intro cls
  induction cls with
  | nil =>
      intro _ _ _ st
      refine ⟨fun _ => [], fun c _ => rfl, fun c hc => absurd hc
        (List.not_mem_nil c), rfl, rfl, rfl, ?_, fun n _ => rfl⟩
      rintro n ⟨c, hc, _⟩
      exact absurd hc (List.not_mem_nil c)
  | cons c rest ih =>
      intro hlab hnd hspn st
      have hc : c ≠ label := fun h => hlab (h ▸ List.mem_cons_self c rest)
      have hcr : c ∉ rest := (List.nodup_cons.mp hnd).1
      obtain ⟨sel, hselnd, hsellen, hselsub, hdep1, hpot1, hhold1, hhl1⟩ :=
        mark_step_nontarget pick hpick label cs act inact spk nspk st hc
          (hspn c (List.mem_cons_self c rest))
      obtain ⟨f', hf'nil, hf'props, hpot2, hhold2, hhl2, hdep2one,
          hdep2keep⟩ :=
        ih (fun h => hlab (List.mem_cons_of_mem c h))
          (List.nodup_cons.mp hnd).2
          (fun c' hc' => hspn c' (List.mem_cons_of_mem c hc'))
          (mark_step pick label cs act inact spk nspk st c)
      refine ⟨fun x => if x = c then sel else f' x, ?_, ?_, ?_, ?_, ?_,
        ?_, ?_⟩
      all_goals dsimp only
      · intro c' hc'
        have h1 : c' ≠ c := fun h => hc' (h ▸ List.mem_cons_self c rest)
        have h2 : c' ∉ rest := fun h => hc' (List.mem_cons_of_mem c h)
        rw [if_neg h1]
        exact hf'nil c' h2
      · intro c' hc'
        rcases List.mem_cons.mp hc' with rfl | hc'
        · rw [if_pos rfl]
          exact ⟨hselnd, hselsub, hsellen⟩
        · have h1 : c' ≠ c := fun h => hcr (h ▸ hc')
          rw [if_neg h1]
          exact hf'props c' hc'
      · rw [List.foldl_cons, hpot2, hpot1]
      · rw [List.foldl_cons, hhold2, hhold1]
      · rw [List.foldl_cons, hhl2, hhl1]
      · rintro n ⟨c', hc', hnf⟩
        rw [List.foldl_cons]
        rcases List.mem_cons.mp hc' with rfl | hcr'
        · rw [if_pos rfl] at hnf
          by_cases hrest : ∃ c'' ∈ rest, n ∈ f' c''
          · exact hdep2one n hrest
          · push_neg at hrest
            rw [hdep2keep n hrest, hdep1 n, if_pos hnf]
        · have h1 : c' ≠ c := fun h => hcr (h ▸ hcr')
          rw [if_neg h1] at hnf
          exact hdep2one n ⟨c', hcr', hnf⟩
      · intro n hall
        rw [List.foldl_cons]
        have hrest : ∀ c'' ∈ rest, n ∉ f' c'' := by
          intro c'' hc''
          have h1 : c'' ≠ c := fun h => hcr (h ▸ hc'')
          have := hall c'' (List.mem_cons_of_mem c hc'')
          rw [if_neg h1] at this
          exact this
        have hseln : n ∉ sel := by
          have := hall c (List.mem_cons_self c rest)
          rw [if_pos rfl] at this
          exact this
        rw [hdep2keep n hrest, hdep1 n, if_neg hseln]

lemma set_markers_char (pick : ℕ → List ℕ → ℕ)
    (hpick : ∀ k l, l ≠ [] → pick k l ∈ l)
    (label cs ca act inact : ℕ) (spk nspk : List (List ℕ))
    (hlab : label < ca) (hact : act ≤ cs)
    (hspknd : ∀ c, c < ca → (spk.getD c []).Nodup)
    (hnspknd : (nspk.getD label []).Nodup)
    (hnspksub : ∀ n ∈ nspk.getD label [], n ∈ class_block label cs)
    (hsum : (spk.getD label []).length + (nspk.getD label []).length = cs) :
    ∃ (selP : List ℕ) (f : ℕ → List ℕ),
      selP.Nodup ∧
      (∀ n ∈ selP, n ∈ nspk.getD label []) ∧
      selP.length = (if (spk.getD label []).length < act then
        act - (spk.getD label []).length else 0) ∧
      (∀ c, c < ca → c ≠ label →
        (f c).Nodup ∧ (∀ n ∈ f c, n ∈ spk.getD c []) ∧
        (f c).length = (if inact < (spk.getD c []).length then
          (spk.getD c []).length - inact else 0)) ∧
      (∀ n, (set_markers pick label cs ca act inact spk nspk
          zeroFlags).potentiate n = if n ∈ selP then 1 else 0) ∧
      (∀ n, (set_markers pick label cs ca act inact spk nspk
          zeroFlags).hold n =
        if n ∈ class_block label cs ∧ n ∉ selP then 1 else 0) ∧
      (∀ n, (∃ c, c < ca ∧ c ≠ label ∧ n ∈ f c) →
        (set_markers pick label cs ca act inact spk nspk
          zeroFlags).depress n = 1) ∧
      (∀ n, (∀ c, c < ca → c ≠ label → n ∉ f c) →
        (set_markers pick label cs ca act inact spk nspk
          zeroFlags).depress n = 0) := by
  obtain ⟨m, hm⟩ : ∃ m, ca = label + (m + 1) := ⟨ca - label - 1, by omega⟩
  have hrange : List.range ca = List.range label ++ label ::
      (List.range m).map (fun i => label + 1 + i) := by
    rw [hm, List.range_add, List.range_succ_eq_map]
    congr 1
    simp only [List.map_cons, List.map_map, Nat.add_zero]
    congr 1
    refine List.map_congr_left (fun i _ => ?_)
    show label + (i + 1) = label + 1 + i
    omega
  have hspn1 : ∀ c ∈ List.range label, (spk.getD c []).Nodup := by
    intro c hc
    rw [List.mem_range] at hc
    exact hspknd c (by omega)
  have hspn2 : ∀ c ∈ (List.range m).map (fun i => label + 1 + i),
      (spk.getD c []).Nodup := by
    intro c hc
    simp only [List.mem_map, List.mem_range] at hc
    obtain ⟨i, hi, rfl⟩ := hc
    exact hspknd _ (by omega)
  have hlab2 : label ∉ (List.range m).map (fun i => label + 1 + i) := by
    simp only [List.mem_map, List.mem_range, not_exists]
    intro i
    omega
  have hnd2 : ((List.range m).map (fun i => label + 1 + i)).Nodup := by
    refine (List.nodup_range m).map ?_
    intro a b hab
    have hab' : label + 1 + a = label + 1 + b := hab
    omega
  obtain ⟨f1, hf1nil, hf1props, hpotA, hholdA, hhlA, hdepAone, hdepAkeep⟩ :=
    fold_nontarget pick hpick label cs act inact spk nspk
      (List.range label) (by simp) (List.nodup_range label) hspn1
      ⟨zeroFlags, [], 0⟩
  have hlenN : act - (spk.getD label []).length ≤
      (nspk.getD label []).length := by omega
  obtain ⟨htgt_def, htgt_hold⟩ :=
    mark_step_target pick hpick label cs act inact spk nspk
      ((List.range label).foldl
        (mark_step pick label cs act inact spk nspk) ⟨zeroFlags, [], 0⟩)
      hnspknd hnspksub hhlA hlenN
  obtain ⟨f2, hf2nil, hf2props, hpotC, hholdC, hhlC, hdepCone, hdepCkeep⟩ :=
    fold_nontarget pick hpick label cs act inact spk nspk
      ((List.range m).map (fun i => label + 1 + i)) hlab2 hnd2 hspn2
      (mark_step pick label cs act inact spk nspk
        ((List.range label).foldl
          (mark_step pick label cs act inact spk nspk)
          ⟨zeroFlags, [], 0⟩) label)
  have hsm : set_markers pick label cs ca act inact spk nspk zeroFlags =
      (((List.range m).map (fun i => label + 1 + i)).foldl
        (mark_step pick label cs act inact spk nspk)
        (mark_step pick label cs act inact spk nspk
          ((List.range label).foldl
            (mark_step pick label cs act inact spk nspk)
            ⟨zeroFlags, [], 0⟩) label)).hold_list.foldl
        (fun f neuron =>
          { potentiate := f.potentiate, depress := f.depress,
            hold := setFlag f.hold neuron 1 })
        (((List.range m).map (fun i => label + 1 + i)).foldl
          (mark_step pick label cs act inact spk nspk)
          (mark_step pick label cs act inact spk nspk
            ((List.range label).foldl
              (mark_step pick label cs act inact spk nspk)
              ⟨zeroFlags, [], 0⟩) label)).flags := by
    unfold set_markers
    rw [hrange, List.foldl_append, List.foldl_cons]
  obtain ⟨hHpot, hHdep, hHhold⟩ := hold_fold
    (((List.range m).map (fun i => label + 1 + i)).foldl
      (mark_step pick label cs act inact spk nspk)
      (mark_step pick label cs act inact spk nspk
        ((List.range label).foldl
          (mark_step pick label cs act inact spk nspk)
          ⟨zeroFlags, [], 0⟩) label)).hold_list
    (((List.range m).map (fun i => label + 1 + i)).foldl
      (mark_step pick label cs act inact spk nspk)
      (mark_step pick label cs act inact spk nspk
        ((List.range label).foldl
          (mark_step pick label cs act inact spk nspk)
          ⟨zeroFlags, [], 0⟩) label)).flags
  -- uniform description of the target step, covering both cases
  obtain ⟨selP, hPnd, hPsub, hPlen, hpot2, hdep2, hhold2, hhm2⟩ :
      ∃ selP : List ℕ,
        selP.Nodup ∧ (∀ n ∈ selP, n ∈ nspk.getD label []) ∧
        selP.length = (if (spk.getD label []).length < act then
          act - (spk.getD label []).length else 0) ∧
        (∀ n, (mark_step pick label cs act inact spk nspk
            ((List.range label).foldl
              (mark_step pick label cs act inact spk nspk)
              ⟨zeroFlags, [], 0⟩) label).flags.potentiate n =
          if n ∈ selP then 1 else
            ((List.range label).foldl
              (mark_step pick label cs act inact spk nspk)
              ⟨zeroFlags, [], 0⟩).flags.potentiate n) ∧
        (mark_step pick label cs act inact spk nspk
            ((List.range label).foldl
              (mark_step pick label cs act inact spk nspk)
              ⟨zeroFlags, [], 0⟩) label).flags.depress =
          ((List.range label).foldl
            (mark_step pick label cs act inact spk nspk)
            ⟨zeroFlags, [], 0⟩).flags.depress ∧
        (mark_step pick label cs act inact spk nspk
            ((List.range label).foldl
              (mark_step pick label cs act inact spk nspk)
              ⟨zeroFlags, [], 0⟩) label).flags.hold =
          ((List.range label).foldl
            (mark_step pick label cs act inact spk nspk)
            ⟨zeroFlags, [], 0⟩).flags.hold ∧
        (∀ n, n ∈ (mark_step pick label cs act inact spk nspk
            ((List.range label).foldl
              (mark_step pick label cs act inact spk nspk)
              ⟨zeroFlags, [], 0⟩) label).hold_list ↔
          n ∈ class_block label cs ∧ n ∉ selP) := by
    by_cases hdef : (spk.getD label []).length < act
    · obtain ⟨selP, h1, h2, h3, h4, h5, h6, _, h8⟩ := htgt_def hdef
      exact ⟨selP, h1, h3, by rw [if_pos hdef]; exact h2, h4, h5, h6, h8⟩
    · obtain ⟨hflags, hhl⟩ := htgt_hold (not_lt.mp hdef)
      refine ⟨[], List.nodup_nil,
        fun n hn => absurd hn (List.not_mem_nil n),
        by rw [if_neg hdef]; rfl,
        fun n => ?_, by rw [hflags], by rw [hflags], fun n => ?_⟩
      · rw [if_neg (List.not_mem_nil n), hflags]
      · rw [hhl]
        simp
  refine ⟨selP, fun c => f1 c ++ f2 c, hPnd, hPsub, hPlen, ?_, ?_, ?_,
    ?_, ?_⟩
  · -- per-class properties of f
    intro c hc hcl
    dsimp only
    by_cases hcless : c < label
    · have h2 : f2 c = [] := hf2nil c (by
        simp only [List.mem_map, List.mem_range, not_exists]
        intro i
        omega)
      have hmem1 : c ∈ List.range label := List.mem_range.mpr hcless
      obtain ⟨ha, hb, hc'⟩ := hf1props c hmem1
      rw [h2, List.append_nil]
      exact ⟨ha, hb, hc'⟩
    · have hcgt : label < c := by omega
      have h1 : f1 c = [] := hf1nil c (by
        simp only [List.mem_range]
        omega)
      have hmem2 : c ∈ (List.range m).map (fun i => label + 1 + i) := by
        simp only [List.mem_map, List.mem_range]
        exact ⟨c - label - 1, by omega, by omega⟩
      obtain ⟨ha, hb, hc'⟩ := hf2props c hmem2
      rw [h1, List.nil_append]
      exact ⟨ha, hb, hc'⟩
  · -- potentiate characterization
    intro n
    rw [hsm, hHpot, hpotC, hpot2 n, hpotA]
    rfl
  · -- hold characterization
    intro n
    rw [hsm, hHhold n, hholdC, hhold2, hholdA, hhlC]
    by_cases hcond : n ∈ class_block label cs ∧ n ∉ selP
    · rw [if_pos hcond, if_pos ((hhm2 n).mpr hcond)]
    · rw [if_neg hcond, if_neg (fun hm => hcond ((hhm2 n).mp hm))]
      rfl
  · -- depress = 1 on the selections
    rintro n ⟨c, hc, hcl, hnf⟩
    have hnf' : n ∈ f1 c ++ f2 c := hnf
    rw [hsm, hHdep]
    rcases List.mem_append.mp hnf' with hnf1 | hnf2
    · have hc1 : c ∈ List.range label := by
        rw [List.mem_range]
        by_contra hcon
        rw [hf1nil c (by rw [List.mem_range]; exact hcon)] at hnf1
        exact List.not_mem_nil n hnf1
      by_cases hrest : ∃ c'' ∈ (List.range m).map (fun i => label + 1 + i),
          n ∈ f2 c''
      · exact hdepCone n hrest
      · push_neg at hrest
        rw [hdepCkeep n hrest, hdep2]
        exact hdepAone n ⟨c, hc1, hnf1⟩
    · have hc2 : c ∈ (List.range m).map (fun i => label + 1 + i) := by
        by_contra hcon
        rw [hf2nil c hcon] at hnf2
        exact List.not_mem_nil n hnf2
      exact hdepCone n ⟨c, hc2, hnf2⟩
  · -- depress = 0 elsewhere
    intro n hall
    rw [hsm, hHdep]
    have hrest2 : ∀ c ∈ (List.range m).map (fun i => label + 1 + i),
        n ∉ f2 c := by
      intro c hcm
      simp only [List.mem_map, List.mem_range] at hcm
      obtain ⟨i, hi, rfl⟩ := hcm
      intro hn
      exact hall _ (by omega) (by omega)
        (List.mem_append.mpr (Or.inr hn))
    have hrest1 : ∀ c ∈ List.range label, n ∉ f1 c := by
      intro c hcm
      rw [List.mem_range] at hcm
      intro hn
      exact hall c (by omega) (by omega) (List.mem_append.mpr (Or.inl hn))
    rw [hdepCkeep n hrest2, hdep2, hdepAkeep n hrest1]
    rfl

/-- C3.  Target-class marker assignment: writing `ns` for the number of
spiking neurons in the label's class, when `ns < active_threshold` the
marker pass sets `potentiate = 1` on exactly `active_threshold - ns`
distinct neurons drawn without replacement from the class's non-spiking
list and `hold = 1` on every other neuron of the class, so each neuron of
the class carries exactly one of {potentiate, hold}; when
`ns ≥ active_threshold` no neuron receives `potentiate` and every neuron
of the class receives `hold = 1`.  Precondition:
`active_threshold ≤ class_size`. -/
theorem target_marker_assignment (pick : ℕ → List ℕ → ℕ)
    (label cs ca act inact : ℕ) (counts : List ℕ)
    (hpick : ∀ k l, l ≠ [] → pick k l ∈ l)
    (hlab : label < ca) (hact : act ≤ cs) :
    (((get_class_spike_ids counts cs ca).1.getD label []).length < act →
      ∃ sel : List ℕ, sel.Nodup ∧
        sel.length =
          act - ((get_class_spike_ids counts cs ca).1.getD label []).length ∧
        (∀ n ∈ sel, n ∈ (get_class_spike_ids counts cs ca).2.getD label []) ∧
        (∀ n, (set_markers pick label cs ca act inact
            (get_class_spike_ids counts cs ca).1
            (get_class_spike_ids counts cs ca).2 zeroFlags).potentiate n = 1
          ↔ n ∈ sel) ∧
        (∀ n ∈ class_block label cs,
          ((set_markers pick label cs ca act inact
            (get_class_spike_ids counts cs ca).1
            (get_class_spike_ids counts cs ca).2 zeroFlags).hold n = 1
          ↔ n ∉ sel)) ∧
        (∀ n ∈ class_block label cs,
          ((set_markers pick label cs ca act inact
            (get_class_spike_ids counts cs ca).1
            (get_class_spike_ids counts cs ca).2 zeroFlags).potentiate n = 1
          ↔ ¬ (set_markers pick label cs ca act inact
            (get_class_spike_ids counts cs ca).1
            (get_class_spike_ids counts cs ca).2 zeroFlags).hold n = 1))) ∧
    (act ≤ ((get_class_spike_ids counts cs ca).1.getD label []).length →
      (∀ n, (set_markers pick label cs ca act inact
        (get_class_spike_ids counts cs ca).1
        (get_class_spike_ids counts cs ca).2 zeroFlags).potentiate n = 0) ∧
      (∀ n ∈ class_block label cs,
        (set_markers pick label cs ca act inact
          (get_class_spike_ids counts cs ca).1
          (get_class_spike_ids counts cs ca).2 zeroFlags).hold n = 1)) := by
  obtain ⟨selP, f, hPnd, hPsub, hPlen, _, hpot, hhold, _, _⟩ :=
    set_markers_char pick hpick label cs ca act inact
      (get_class_spike_ids counts cs ca).1
      (get_class_spike_ids counts cs ca).2 hlab hact
      (fun c hc => spk_getD_nodup counts cs ca hc)
      (nspk_getD_nodup counts cs ca hlab)
      (nspk_getD_subset counts cs ca hlab)
      (spk_nspk_length counts cs ca hlab)
  constructor
  · intro hdef
    refine ⟨selP, hPnd, by rw [hPlen, if_pos hdef], hPsub, ?_, ?_, ?_⟩
    · intro n
      rw [hpot n]
      by_cases hn : n ∈ selP
      · simp [hn]
      · simp [hn]
    · intro n hn
      rw [hhold n]
      by_cases hsel : n ∈ selP
      · simp [hn, hsel]
      · simp [hn, hsel]
    · intro n hn
      rw [hpot n, hhold n]
      by_cases hsel : n ∈ selP
      · simp [hn, hsel]
      · simp [hn, hsel]
  · intro hge
    have hsel0 : selP = [] := List.length_eq_zero.mp
      (by rw [hPlen, if_neg (not_lt.mpr hge)])
    constructor
    · intro n
      rw [hpot n, hsel0]
      simp
    · intro n hn
      rw [hhold n, hsel0]
      simp [hn]

/-- Deterministic stand-in for `rng.choice` used in the witnesses: always
pick the head of the candidate list. -/
def head_pick : ℕ → List ℕ → ℕ := fun _ l => l.headD 0

lemma head_pick_valid : ∀ (k : ℕ) (l : List ℕ), l ≠ [] →
    head_pick k l ∈ l := by
  intro k l hl
  cases l with
  | nil => exact absurd rfl hl
  | cons a t => exact List.mem_cons_self a t

/-- Witness for C3: two classes of size 2, class 0 is the target and
already has two active neurons, so everyone in class 0 gets `hold`. -/
theorem target_marker_assignment_witness :
    (∀ (k : ℕ) (l : List ℕ), l ≠ [] → head_pick k l ∈ l) ∧
    (0 : ℕ) < 2 ∧ (1 : ℕ) ≤ 2 ∧
    (1 ≤ ((get_class_spike_ids [1, 1, 0, 0] 2 2).1.getD 0 []).length →
      (∀ n, (set_markers head_pick 0 2 2 1 0
        (get_class_spike_ids [1, 1, 0, 0] 2 2).1
        (get_class_spike_ids [1, 1, 0, 0] 2 2).2 zeroFlags).potentiate n
          = 0) ∧
      (∀ n ∈ class_block 0 2,
        (set_markers head_pick 0 2 2 1 0
          (get_class_spike_ids [1, 1, 0, 0] 2 2).1
          (get_class_spike_ids [1, 1, 0, 0] 2 2).2 zeroFlags).hold n = 1)) :=
  ⟨head_pick_valid, by decide, by decide,
    (target_marker_assignment head_pick 0 2 2 1 0 [1, 1, 0, 0]
      head_pick_valid (by decide) (by decide)).2⟩

/-- C4.  Non-target-class marker assignment: writing `ns` for the number
of spiking neurons in a class `c ≠ label`, when `ns > inactive_threshold`
the marker pass sets `depress = 1` on exactly `ns - inactive_threshold`
distinct neurons drawn without replacement from the class's spiking list,
and every remaining neuron of the class carries no flag at all; when
`ns ≤ inactive_threshold` no neuron of the class carries any flag. -/
theorem nontarget_marker_assignment (pick : ℕ → List ℕ → ℕ)
    (label cs ca act inact : ℕ) (counts : List ℕ) (c : ℕ)
    (hpick : ∀ k l, l ≠ [] → pick k l ∈ l)
    (hlab : label < ca) (hact : act ≤ cs) (hc : c < ca) (hcl : c ≠ label) :
    (inact < ((get_class_spike_ids counts cs ca).1.getD c []).length →
      ∃ sel : List ℕ, sel.Nodup ∧
        sel.length =
          ((get_class_spike_ids counts cs ca).1.getD c []).length - inact ∧
        (∀ n ∈ sel, n ∈ (get_class_spike_ids counts cs ca).1.getD c []) ∧
        (∀ n ∈ class_block c cs,
          ((set_markers pick label cs ca act inact
            (get_class_spike_ids counts cs ca).1
            (get_class_spike_ids counts cs ca).2 zeroFlags).depress n = 1
          ↔ n ∈ sel)) ∧
        (∀ n ∈ class_block c cs, n ∉ sel →
          (set_markers pick label cs ca act inact
            (get_class_spike_ids counts cs ca).1
            (get_class_spike_ids counts cs ca).2 zeroFlags).depress n = 0 ∧
          (set_markers pick label cs ca act inact
            (get_class_spike_ids counts cs ca).1
            (get_class_spike_ids counts cs ca).2 zeroFlags).potentiate n
            = 0 ∧
          (set_markers pick label cs ca act inact
            (get_class_spike_ids counts cs ca).1
            (get_class_spike_ids counts cs ca).2 zeroFlags).hold n = 0)) ∧
    (((get_class_spike_ids counts cs ca).1.getD c []).length ≤ inact →
      ∀ n ∈ class_block c cs,
        (set_markers pick label cs ca act inact
          (get_class_spike_ids counts cs ca).1
          (get_class_spike_ids counts cs ca).2 zeroFlags).depress n = 0 ∧
        (set_markers pick label cs ca act inact
          (get_class_spike_ids counts cs ca).1
          (get_class_spike_ids counts cs ca).2 zeroFlags).potentiate n = 0 ∧
        (set_markers pick label cs ca act inact
          (get_class_spike_ids counts cs ca).1
          (get_class_spike_ids counts cs ca).2 zeroFlags).hold n = 0) := by
  obtain ⟨selP, f, hPnd, hPsub, hPlen, hfprops, hpot, hhold, hdep1,
      hdep0⟩ :=
    set_markers_char pick hpick label cs ca act inact
      (get_class_spike_ids counts cs ca).1
      (get_class_spike_ids counts cs ca).2 hlab hact
      (fun c' hc' => spk_getD_nodup counts cs ca hc')
      (nspk_getD_nodup counts cs ca hlab)
      (nspk_getD_subset counts cs ca hlab)
      (spk_nspk_length counts cs ca hlab)
  have hnsel : ∀ n ∈ class_block c cs, n ∉ selP := by
    intro n hn hsel
    exact class_block_disjoint hcl hn
      (nspk_getD_subset counts cs ca hlab _ (hPsub _ hsel))
  have hpot0 : ∀ n ∈ class_block c cs,
      (set_markers pick label cs ca act inact
        (get_class_spike_ids counts cs ca).1
        (get_class_spike_ids counts cs ca).2 zeroFlags).potentiate n
        = 0 := by
    intro n hn
    rw [hpot n, if_neg (hnsel n hn)]
  have hhold0 : ∀ n ∈ class_block c cs,
      (set_markers pick label cs ca act inact
        (get_class_spike_ids counts cs ca).1
        (get_class_spike_ids counts cs ca).2 zeroFlags).hold n = 0 := by
    intro n hn
    rw [hhold n, if_neg]
    rintro ⟨hbl, _⟩
    exact class_block_disjoint hcl hn hbl
  have hother : ∀ n ∈ class_block c cs, n ∉ f c →
      ∀ c', c' < ca → c' ≠ label → n ∉ f c' := by
    intro n hn hnf c' hc' hcl'
    by_cases hcc : c' = c
    · rw [hcc]
      exact hnf
    · intro hmem
      obtain ⟨_, hsub', _⟩ := hfprops c' hc' hcl'
      exact class_block_disjoint (Ne.symm hcc) hn
        (spk_getD_subset counts cs ca hc' _ (hsub' _ hmem))
  obtain ⟨hfnd, hfsub, hflen⟩ := hfprops c hc hcl
  constructor
  · intro hit
    refine ⟨f c, hfnd, by rw [hflen, if_pos hit], hfsub, ?_, ?_⟩
    · intro n hn
      constructor
      · intro hone
        by_contra hnf
        rw [hdep0 n (hother n hn hnf)] at hone
        exact absurd hone (by omega)
      · intro hnf
        exact hdep1 n ⟨c, hc, hcl, hnf⟩
    · intro n hn hnf
      exact ⟨hdep0 n (hother n hn hnf), hpot0 n hn, hhold0 n hn⟩
  · intro hle
    intro n hn
    have hfc : f c = [] := List.length_eq_zero.mp
      (by rw [hflen, if_neg (not_lt.mpr hle)])
    have hnf : n ∉ f c := by
      rw [hfc]
      exact List.not_mem_nil n
    exact ⟨hdep0 n (hother n hn hnf), hpot0 n hn, hhold0 n hn⟩

/-- Witness for C4: two classes of size 2, class 1 is a non-target class
with no spiking neurons, so class 1 carries no flag at all. -/
theorem nontarget_marker_assignment_witness :
    (∀ (k : ℕ) (l : List ℕ), l ≠ [] → head_pick k l ∈ l) ∧
    (0 : ℕ) < 2 ∧ (1 : ℕ) ≤ 2 ∧ (1 : ℕ) < 2 ∧ (1 : ℕ) ≠ 0 ∧
    (((get_class_spike_ids [0, 0, 0, 0] 2 2).1.getD 1 []).length ≤ 0 →
      ∀ n ∈ class_block 1 2,
        (set_markers head_pick 0 2 2 1 0
          (get_class_spike_ids [0, 0, 0, 0] 2 2).1
          (get_class_spike_ids [0, 0, 0, 0] 2 2).2 zeroFlags).depress n
            = 0 ∧
        (set_markers head_pick 0 2 2 1 0
          (get_class_spike_ids [0, 0, 0, 0] 2 2).1
          (get_class_spike_ids [0, 0, 0, 0] 2 2).2 zeroFlags).potentiate n
            = 0 ∧
        (set_markers head_pick 0 2 2 1 0
          (get_class_spike_ids [0, 0, 0, 0] 2 2).1
          (get_class_spike_ids [0, 0, 0, 0] 2 2).2 zeroFlags).hold n
            = 0) :=
  ⟨head_pick_valid, by decide, by decide, by decide, by decide,
    (nontarget_marker_assignment head_pick 0 2 2 1 0 [0, 0, 0, 0] 1
      head_pick_valid (by decide) (by decide) (by decide)
      (by decide)).2⟩

end Brawn
